import Mathlib

/-!
# Verification of the N-puzzle solver

Shallow embedding of `src/lib/puzzleSolver.ts` (class `PuzzleSolver`) and of the
move-replay logic in `src/app/page.tsx` (`handleStepChange` / `getNewPosition`),
together with proofs of the specified properties.

Conventions of the embedding:
* `PuzzleState = number[][]` becomes `Grid := List (List Nat)`.
* JavaScript exceptions become `Except String` results carrying the thrown message.
* The unbounded `while` loops of `solve` become fuel-indexed recursions returning
  `Option (Except String Solution)`; `none` means the fuel ran out (a model
  artifact), `some r` is the outcome the source produces.
* `JSON.stringify` keys of the visited set and of the `fScore` map are injective
  on grids, so the model keys those structures by the grid itself.
* The `cost` field of `PuzzleNode` is written by `createNode` but never read
  anywhere in the class, so nodes are modelled without it.
* `performance.now()` timing (`timeTaken`) is wall-clock instrumentation and is
  not modelled.
-/

namespace NPuzzle

instance {ε : Type} {α : Type} [DecidableEq ε] [DecidableEq α] :
    DecidableEq (Except ε α) := fun x y =>
  match x, y with
  | .ok a, .ok b => decidable_of_iff (a = b) (by simp)
  | .error a, .error b => decidable_of_iff (a = b) (by simp)
  | .ok _, .error _ => .isFalse (by simp)
  | .error _, .ok _ => .isFalse (by simp)

/-- `PuzzleState`: an N×N grid of naturals, row-major. -/
abbrev Grid := List (List Nat)

/-- `state[i][j]`. The source only ever reads in-bounds cells of N×N grids; the
defaults are never hit under the well-formedness hypotheses used below. -/
def cell (g : Grid) (i j : Nat) : Nat := (g.getD i []).getD j 0

/-- `generateGoalState` (lines 12-23): cell (i,j) holds `i*size+j+1`, then the
last cell is overwritten with 0. -/
def generateGoalState (size : Nat) : Grid :=
  let base := (List.range size).map fun i => (List.range size).map fun j => i * size + j + 1
  base.modify (fun row => row.set (size - 1) 0) (size - 1)

/-- `isGoalState` (lines 25-34): element-wise comparison against the goal grid
(the `goalState` field always holds `generateGoalState size`). -/
def isGoalState (size : Nat) (g : Grid) : Bool :=
  (List.range size).all fun i => (List.range size).all fun j =>
    cell g i j == cell (generateGoalState size) i j

/-- Row-major scan order of the two nested loops of `getBlankPosition`. -/
def rowMajor (size : Nat) : List (Nat × Nat) :=
  (List.range size).flatMap fun i => (List.range size).map fun j => (i, j)

/-- `getBlankPosition` (lines 36-45): first cell holding 0 in row-major order;
throws when there is none. -/
def getBlankPosition (size : Nat) (g : Grid) : Except String (Nat × Nat) :=
  match (rowMajor size).find? (fun p => cell g p.1 p.2 == 0) with
  | some p => .ok p
  | none => .error "No blank tile found"

/-- `state.modify`-style update of a single cell, used to express the JS swap. -/
def setCell (g : Grid) (i j v : Nat) : Grid :=
  g.modify (fun row => row.set j v) i

/-- The destructuring swap of lines 63-64: both values are read from the
original grid, then written. -/
def swapCells (g : Grid) (i1 j1 i2 j2 : Nat) : Grid :=
  setCell (setCell g i1 j1 (cell g i2 j2)) i2 j2 (cell g i1 j1)

/-- Candidate direction deltas of `getPossibleMoves` in source order:
Up, Down, Left, Right. -/
def directions : List (Int × Int) := [(-1, 0), (1, 0), (0, -1), (0, 1)]

/-- `getPossibleMoves` (lines 47-70): one successor per in-bounds direction,
each an independent grid with the blank swapped into the neighbouring cell. -/
def getPossibleMoves (size : Nat) (g : Grid) : Except String (List Grid) := do
  let blankPos ← getBlankPosition size g
  .ok <| directions.filterMap fun d =>
    let newRow : Int := (blankPos.1 : Int) + d.1
    let newCol : Int := (blankPos.2 : Int) + d.2
    if 0 ≤ newRow ∧ newRow < size ∧ 0 ≤ newCol ∧ newCol < size then
      some (swapCells g blankPos.1 blankPos.2 newRow.toNat newCol.toNat)
    else none

/-- `manhattanDistance` (lines 72-86): sum over non-blank cells of
`|i - goalRow| + |j - goalCol|` with `goalRow = (v-1)/size`,
`goalCol = (v-1)%size`. -/
def manhattanDistance (size : Nat) (g : Grid) : Nat :=
  ((List.range size).map fun i =>
    ((List.range size).map fun j =>
      let value := cell g i j
      if value ≠ 0 then
        ((i : Int) - ((value - 1) / size : Nat)).natAbs
          + ((j : Int) - ((value - 1) % size : Nat)).natAbs
      else 0).sum).sum

/-- `hammingDistance` (lines 88-99): counts every cell whose value differs from
the goal grid (including the blank cell). -/
def hammingDistance (size : Nat) (g : Grid) : Nat :=
  ((List.range size).map fun i =>
    ((List.range size).map fun j =>
      if cell g i j ≠ cell (generateGoalState size) i j then 1 else 0).sum).sum

/-- `countLinearConflicts` (lines 125-153). The source tests
`tileRow === goalTileRow` twice with identical operands (lines 137 and 141);
the two tests collapse to one here. `size` is the length of the line, and the
division/modulo act on tile values, exactly as in the source. -/
def countLinearConflicts (tiles goalTiles : List Nat) : Nat :=
  let size := tiles.length
  ((List.range size).map fun i =>
    let tile := tiles.getD i 0
    let goalTile := goalTiles.getD i 0
    if tile ≠ 0 ∧ goalTile ≠ 0 then
      if tile / size = goalTile / size then
        if tile % size < goalTile % size ∧ goalTile % size < size - 1 then 1 else 0
      else 0
    else 0).sum

/-- `state.map(row => row[j])`: the j-th column. -/
def column (g : Grid) (j : Nat) : List Nat := g.map fun row => row.getD j 0

/-- `linearConflicts` (lines 102-123): the sum of `countLinearConflicts` over
all rows and all columns, paired with the corresponding goal row/column. -/
def linearConflicts (size : Nat) (g : Grid) : Nat :=
  let goalState := generateGoalState size
  (((List.range size).map fun i =>
      countLinearConflicts (g.getD i []) (goalState.getD i [])).sum)
    + (((List.range size).map fun j =>
      countLinearConflicts (column g j) (column goalState j)).sum)

/-- `countInversions` (lines 207-220): pairs `i < j` in the flattened grid with
both values non-zero and `flat[i] > flat[j]`. -/
def countInversions (g : Grid) : Nat :=
  let flatState := g.flatten
  ((List.range flatState.length).map fun i =>
    ((List.range flatState.length).map fun j =>
      if i < j ∧ flatState.getD i 0 ≠ 0 ∧ flatState.getD j 0 ≠ 0
          ∧ flatState.getD i 0 > flatState.getD j 0 then 1 else 0).sum).sum

/-- `getBlankRowFromBottom` (lines 222-225): `size - blankRow`. -/
def getBlankRowFromBottom (size : Nat) (g : Grid) : Except String Nat := do
  let blankPos ← getBlankPosition size g
  .ok (size - blankPos.1)

/-- `isSolvable` (lines 227-240). Both the inversion count and the blank row are
computed before the parity branch, exactly as in the source. -/
def isSolvable (size : Nat) (g : Grid) : Except String Bool := do
  let inversions := countInversions g
  let blankRowFromBottom ← getBlankRowFromBottom size g
  if size % 2 = 1 then
    .ok (decide (inversions % 2 = 0))
  else
    .ok (decide ((blankRowFromBottom % 2 = 0) ↔ (inversions % 2 = 1)))

/-- Dispatch outcome of `getHeuristic` (lines 171-184) by heuristic name: the
four known names dispatch, anything else throws. The integer-valued heuristics
are modelled by `hammingDistance`, `linearConflicts` and `manhattanDistance`
above; `euclideanDistance` (lines 155-168) sums IEEE floating-point square
roots, so only its dispatch outcome is modelled. -/
def getHeuristicDispatch (heuristic : String) : Except String Unit :=
  match heuristic with
  | "hamming" => .ok ()
  | "linearConflicts" => .ok ()
  | "euclidean" => .ok ()
  | "manhattan" => .ok ()
  | _ => .error ("Unknown heuristic: " ++ heuristic)

/-- `PuzzleNode` as a parent-chained tree (lines 188-196). `depth` and the
reconstructed path are recovered structurally; the `cost` field is never read by
the source and is omitted. -/
inductive PNode where
  | root (state : Grid)
  | child (parent : PNode) (state : Grid) (action : String)
deriving DecidableEq

/-- The `state` field of a node. -/
def PNode.state : PNode → Grid
  | .root s => s
  | .child _ s _ => s

/-- The `depth` field: 0 at the root, parent depth + 1 otherwise. -/
def PNode.depth : PNode → Nat
  | .root _ => 0
  | .child p _ _ => p.depth + 1

/-- `reconstructPath` (lines 198-205): the actions from the root down to the
node; the root's empty action is not included. -/
def PNode.reconstructPath : PNode → List String
  | .root _ => []
  | .child p _ a => p.reconstructPath ++ [a]

/-- `getAction` (lines 351-360): compares the blank positions of the two states.
The source rethrows `getBlankPosition`'s error when a state has no blank; inside
`solve` both arguments always contain a blank (`getPossibleMoves` has already
succeeded on `cur` and every move keeps its blank), so the model returns the
empty label on that unreachable branch. -/
def getAction (size : Nat) (cur next : Grid) : String :=
  match getBlankPosition size cur, getBlankPosition size next with
  | .ok c, .ok n =>
    if n.1 < c.1 then "Up"
    else if n.1 > c.1 then "Down"
    else if n.2 < c.2 then "Left"
    else if n.2 > c.2 then "Right"
    else ""
  | _, _ => ""

/-- The `Solution` record (without the wall-clock `timeTaken`). -/
structure Solution where
  path : List String
  nodesExplored : Nat
  maxDepth : Nat
deriving DecidableEq

/-- The children pushed when expanding `node` (the inner `for` of each branch of
`solve`): moves not in the visited set, in source direction order. -/
def expandChildren (size : Nat) (node : PNode) (moves : List Grid)
    (visited : List Grid) : List PNode :=
  (moves.filter fun m => !visited.contains m).map
    fun m => PNode.child node m (getAction size node.state m)

/-- Loop state of the BFS/DFS branches of `solve`: the frontier, the visited
set and the two statistics counters. -/
structure SConfig where
  queue : List PNode
  visited : List Grid
  nodesExplored : Nat
  maxDepth : Nat
deriving DecidableEq

/-- One iteration of the BFS while-loop (lines 253-278): pop the queue front,
count it, test for goal, discard if visited, otherwise mark visited and append
the unvisited children to the back. `.inl` is the loop terminating (returning
or throwing), `.inr` the next loop state. An empty queue falls through to the
`No solution found` throw of line 348. -/
def bfsStep (size : Nat) (c : SConfig) : Except String Solution ⊕ SConfig :=
  match c.queue with
  | [] => .inl (.error "No solution found")
  | node :: rest =>
    let nodesExplored := c.nodesExplored + 1
    let maxDepth := max c.maxDepth node.depth
    if isGoalState size node.state then
      .inl (.ok ⟨node.reconstructPath, nodesExplored, maxDepth⟩)
    else if c.visited.contains node.state then
      .inr ⟨rest, c.visited, nodesExplored, maxDepth⟩
    else
      match getPossibleMoves size node.state with
      | .error e => .inl (.error e)
      | .ok moves =>
        let visited := node.state :: c.visited
        .inr ⟨rest ++ expandChildren size node moves visited, visited,
          nodesExplored, maxDepth⟩

/-- The BFS branch of `solve`, fuel-indexed over `bfsStep`. -/
def bfsLoop (size : Nat) : Nat → SConfig → Option (Except String Solution)
  | 0, _ => none
  | fuel + 1, c =>
    match bfsStep size c with
    | .inl r => some r
    | .inr c2 => bfsLoop size fuel c2

/-- One iteration of the DFS while-loop (lines 283-308). The source stack
pushes and pops at the array end; the model keeps the stack top at the list
head, so the children (generated in direction order) are prepended reversed. -/
def dfsStep (size : Nat) (c : SConfig) : Except String Solution ⊕ SConfig :=
  match c.queue with
  | [] => .inl (.error "No solution found")
  | node :: rest =>
    let nodesExplored := c.nodesExplored + 1
    let maxDepth := max c.maxDepth node.depth
    if isGoalState size node.state then
      .inl (.ok ⟨node.reconstructPath, nodesExplored, maxDepth⟩)
    else if c.visited.contains node.state then
      .inr ⟨rest, c.visited, nodesExplored, maxDepth⟩
    else
      match getPossibleMoves size node.state with
      | .error e => .inl (.error e)
      | .ok moves =>
        let visited := node.state :: c.visited
        .inr ⟨(expandChildren size node moves visited).reverse ++ rest, visited,
          nodesExplored, maxDepth⟩

/-- The DFS branch of `solve`, fuel-indexed over `dfsStep`. -/
def dfsLoop (size : Nat) : Nat → SConfig → Option (Except String Solution)
  | 0, _ => none
  | fuel + 1, c =>
    match dfsStep size c with
    | .inl r => some r
    | .inr c2 => dfsLoop size fuel c2

/-- The `fScore` map of the A* branch: `JSON.stringify`ed states to numbers.
`Map.set` semantics are modelled by front insertion with first-match lookup,
which yields the same lookup function. -/
abbrev FMap := List (Grid × Nat)

/-- `fScore.get(key(g)) || 0` (the sort comparator of line 316). -/
def fLookup (m : FMap) (g : Grid) : Nat :=
  (((m.find? fun p => p.1 == g).map Prod.snd).getD 0)

/-- `fScore.set(key(g), v)`. -/
def fSet (m : FMap) (g : Grid) (v : Nat) : FMap := (g, v) :: m

/-- Stable insertion of a node into a list sorted ascending by recorded fScore:
the node goes after every element with a smaller-or-equal key. -/
def insertByF (m : FMap) (nd : PNode) : List PNode → List PNode
  | [] => [nd]
  | x :: xs =>
    if fLookup m x.state ≤ fLookup m nd.state then x :: insertByF m nd xs
    else nd :: x :: xs

/-- `openSet.sort((a,b) => f(a) - f(b))` of line 316. JavaScript array sort is
stable, and stable ascending sorting by a fixed key is unique, so this stable
insertion sort computes exactly the source's frontier order. -/
def sortByF (m : FMap) (l : List PNode) : List PNode :=
  l.foldl (fun acc nd => insertByF m nd acc) []

/-- The fScore writes of one A* expansion (line 341): one unconditional
`fScore.set` per generated unvisited move, in direction order. -/
def fScoreWrites (h : Grid → Nat) (node : PNode) (newMoves : List Grid)
    (fmap : FMap) : FMap :=
  newMoves.foldl (fun acc m => fSet acc m (node.depth + 1 + h m)) fmap

/-- Loop state of the A* branch: the open set, the visited set, the fScore map
and the two statistics counters. -/
structure AConfig where
  openSet : List PNode
  visited : List Grid
  fmap : FMap
  nodesExplored : Nat
  maxDepth : Nat
deriving DecidableEq

/-- One iteration of the A* while-loop (lines 315-345): sort the open set by
recorded fScore, pop the front, count it, test for goal, discard if visited,
otherwise record each unvisited neighbour's tentative fScore (overwriting any
previous record, line 341) and append the new nodes. -/
def astarStep (size : Nat) (h : Grid → Nat) (c : AConfig) :
    Except String Solution ⊕ AConfig :=
  match sortByF c.fmap c.openSet with
  | [] => .inl (.error "No solution found")
  | node :: rest =>
    let nodesExplored := c.nodesExplored + 1
    let maxDepth := max c.maxDepth node.depth
    if isGoalState size node.state then
      .inl (.ok ⟨node.reconstructPath, nodesExplored, maxDepth⟩)
    else if c.visited.contains node.state then
      .inr ⟨rest, c.visited, c.fmap, nodesExplored, maxDepth⟩
    else
      match getPossibleMoves size node.state with
      | .error e => .inl (.error e)
      | .ok moves =>
        let visited := node.state :: c.visited
        let newMoves := moves.filter fun m => !visited.contains m
        .inr ⟨rest ++ expandChildren size node moves visited, visited,
          fScoreWrites h node newMoves c.fmap, nodesExplored, maxDepth⟩

/-- The A* branch of `solve`, fuel-indexed over `astarStep`. -/
def astarLoop (size : Nat) (h : Grid → Nat) : Nat → AConfig →
    Option (Except String Solution)
  | 0, _ => none
  | fuel + 1, c =>
    match astarStep size h c with
    | .inl r => some r
    | .inr c2 => astarLoop size h fuel c2

/-- `astarStep` iterated a fixed number of times (used to name intermediate
loop states of a concrete run). -/
def astarIterate (size : Nat) (h : Grid → Nat) : Nat → AConfig →
    Except String Solution ⊕ AConfig
  | 0, c => .inr c
  | k + 1, c =>
    match astarStep size h c with
    | .inl r => .inl r
    | .inr c2 => astarIterate size h k c2

/-- Projection of a still-running iteration outcome onto its loop state. -/
def confOf : Except String Solution ⊕ AConfig → AConfig
  | .inl _ => ⟨[], [], [], 0, 0⟩
  | .inr c => c

/-- The loop state the A* branch starts from (lines 311-313): the root node in
the open set, nothing visited, and the initial state's heuristic in the map. -/
def aconf0 (g : Grid) (h : Grid → Nat) : AConfig :=
  ⟨[PNode.root g], [], [(g, h g)], 0, 0⟩

/-- `solve` (lines 242-349) for a resolved integer heuristic valuation `h`.
An algorithm name outside bfs/dfs/astar falls through every branch to the final
`No solution found` throw without touching the initial state. -/
def solve (size : Nat) (g : Grid) (algorithm : String) (h : Grid → Nat)
    (fuel : Nat) : Option (Except String Solution) :=
  if algorithm = "bfs" then
    bfsLoop size fuel ⟨[PNode.root g], [], 0, 0⟩
  else if algorithm = "dfs" then
    dfsLoop size fuel ⟨[PNode.root g], [], 0, 0⟩
  else if algorithm = "astar" then
    astarLoop size h fuel (aconf0 g h)
  else
    some (.error "No solution found")

/-! ## Replay of a returned path (src/app/page.tsx) -/

/-- `getNewPosition` (page.tsx lines 159-167): target cell of the blank for a
move label; unlisted labels leave the position unchanged. -/
def getNewPosition (row col : Nat) (move : String) : Int × Int :=
  if move = "Up" then ((row : Int) - 1, (col : Int))
  else if move = "Down" then ((row : Int) + 1, (col : Int))
  else if move = "Left" then ((row : Int), (col : Int) - 1)
  else if move = "Right" then ((row : Int), (col : Int) + 1)
  else ((row : Int), (col : Int))

/-- One replay step (the loop body of `handleStepChange`, page.tsx lines
148-155): swap the blank with the cell named by the label. `none` models the
TypeError the source hits when the target cell is off the board or the state
has no blank. -/
def replayStep (size : Nat) (g : Grid) (move : String) : Option Grid :=
  match getBlankPosition size g with
  | .error _ => none
  | .ok b =>
    let p := getNewPosition b.1 b.2 move
    if 0 ≤ p.1 ∧ p.1 < (size : Int) ∧ 0 ≤ p.2 ∧ p.2 < (size : Int) then
      some (swapCells g b.1 b.2 p.1.toNat p.2.toNat)
    else none

/-- Sequential replay of a whole path against a starting state. -/
def replay (size : Nat) (g : Grid) (path : List String) : Option Grid :=
  path.foldlM (replayStep size) g

/-! ## Well-formedness of puzzle states -/

/-- The grid is an N×N matrix. -/
def Shape (size : Nat) (g : Grid) : Prop :=
  g.length = size ∧ ∀ row ∈ g, row.length = size

instance (size : Nat) (g : Grid) : Decidable (Shape size g) := by
  unfold Shape; infer_instance

/-- A well-formed puzzle state: N×N and a permutation of 0..N²−1 (hence with
exactly one blank). -/
def Wf (size : Nat) (g : Grid) : Prop :=
  Shape size g ∧ g.flatten.Perm (List.range (size * size))

instance (size : Nat) (g : Grid) : Decidable (Wf size g) := by
  unfold Wf; exact instDecidableAnd

/-! ## Specification-side and proof-side definitions -/

/-- Inversions as the specification words them: the number of pairs `i < j` of
positions in the flattened grid, both holding non-blank values, whose values
appear in decreasing order. -/
def specInversions (l : List Nat) : Nat :=
  ((Finset.range l.length ×ˢ Finset.range l.length).filter fun p =>
    p.1 < p.2 ∧ l.getD p.1 0 ≠ 0 ∧ l.getD p.2 0 ≠ 0
      ∧ l.getD p.1 0 > l.getD p.2 0).card

/-- C7 specification side: the number of non-blank tiles away from their goal
cell (the goal cell of value v being row (v−1)/N, column (v−1)%N). -/
def specMisplacedNonBlank (size : Nat) (g : Grid) : Nat :=
  ((Finset.range size ×ˢ Finset.range size).filter fun p =>
    cell g p.1 p.2 ≠ 0 ∧
      ¬((cell g p.1 p.2 - 1) / size = p.1 ∧ (cell g p.1 p.2 - 1) % size = p.2)).card

/-- C6 specification side, row conflicts: pairs of positions `q.1 < q.2` in row
`i`, both non-blank, both with goal row `i`, whose goal columns are in reversed
order. -/
def specRowConflictPairs (size : Nat) (g : Grid) : Nat :=
  ∑ i ∈ Finset.range size,
    ((Finset.range size ×ˢ Finset.range size).filter fun q =>
      q.1 < q.2 ∧ cell g i q.1 ≠ 0 ∧ cell g i q.2 ≠ 0
        ∧ (cell g i q.1 - 1) / size = i ∧ (cell g i q.2 - 1) / size = i
        ∧ (cell g i q.1 - 1) % size > (cell g i q.2 - 1) % size).card

/-- C6 specification side, column conflicts: pairs of positions `q.1 < q.2` in
column `j`, both non-blank, both with goal column `j`, whose goal rows are in
reversed order. -/
def specColConflictPairs (size : Nat) (g : Grid) : Nat :=
  ∑ j ∈ Finset.range size,
    ((Finset.range size ×ˢ Finset.range size).filter fun q =>
      q.1 < q.2 ∧ cell g q.1 j ≠ 0 ∧ cell g q.2 j ≠ 0
        ∧ (cell g q.1 j - 1) % size = j ∧ (cell g q.2 j - 1) % size = j
        ∧ (cell g q.1 j - 1) / size > (cell g q.2 j - 1) / size).card

/-- C6 specification side: Manhattan distance plus 2 per conflicting pair, rows
and columns counted independently. -/
def specLinearConflicts (size : Nat) (g : Grid) : Nat :=
  manhattanDistance size g
    + 2 * (specRowConflictPairs size g + specColConflictPairs size g)

/-- The legal-move relation: `m` is `g` with the blank swapped into an
orthogonally adjacent in-bounds cell. -/
def AdjSwap (size : Nat) (g m : Grid) (bi bj : Nat) : Prop :=
  ∃ ni nj, ni < size ∧ nj < size
    ∧ ((ni + 1 = bi ∧ nj = bj) ∨ (ni = bi + 1 ∧ nj = bj)
      ∨ (ni = bi ∧ nj + 1 = bj) ∨ (ni = bi ∧ nj = bj + 1))
    ∧ m = swapCells g bi bj ni nj

/-- Search-tree lineage: a node's state is well-formed, replaying its
reconstructed path from the initial state reproduces its state, and its depth
is the path length. -/
def NodeInv (size : Nat) (g0 : Grid) (nd : PNode) : Prop :=
  Wf size nd.state
    ∧ replay size g0 nd.reconstructPath = some nd.state
    ∧ nd.depth = nd.reconstructPath.length

/-- The A* loop state reached by the hamming run from `[[1,2,3],[4,8,5],[0,7,6]]`
after three pops. -/
def c5start : AConfig := aconf0 [[1, 2, 3], [4, 8, 5], [0, 7, 6]] (hammingDistance 3)

/-- Depth and recorded fScore of the node about to be removed, then of every
other frontier node, at a given A* loop state. -/
def c5probe (c : AConfig) : (Nat × Nat) × List (Nat × Nat) :=
  let sorted := sortByF c.fmap c.openSet
  let popped := sorted.headD (PNode.root [])
  ((popped.depth, fLookup c.fmap popped.state),
    (sorted.drop 1).map fun nd => (nd.depth, fLookup c.fmap nd.state))

/-- The successor list of a state (empty on the unreachable no-blank error). -/
def movesOf (size : Nat) (g : Grid) : List Grid :=
  match getPossibleMoves size g with
  | .ok ms => ms
  | .error _ => []

/-- The A* loop state of the linearConflicts run from
`[[1,0,5],[4,3,2],[7,8,6]]`. -/
def c4start : AConfig := aconf0 [[1, 0, 5], [4, 3, 2], [7, 8, 6]] (linearConflicts 3)

/-- The state that is regenerated while already in the frontier during that
run. -/
def c4dup : Grid := [[0, 4, 5], [3, 1, 2], [7, 8, 6]]

/-- Facts about one A* loop state, relative to `c4dup`: depth of the node about
to be popped, number of frontier entries holding `c4dup`, whether `c4dup` is
visited, whether the popped node generates it, its recorded fScore, and the new
tentative fScore the expansion will write. -/
def c4probe (c : AConfig) : Nat × Nat × Bool × Bool × Nat × Nat :=
  let sorted := sortByF c.fmap c.openSet
  let popped := sorted.headD (PNode.root [])
  (popped.depth,
    (sorted.drop 1).countP (fun nd => nd.state == c4dup),
    c.visited.contains c4dup,
    (movesOf 3 popped.state).contains c4dup,
    fLookup c.fmap c4dup,
    popped.depth + 1 + linearConflicts 3 c4dup)

/-- Recorded fScore of `c4dup` and number of frontier entries holding it. -/
def c4post (c : AConfig) : Nat × Nat :=
  (fLookup c.fmap c4dup, c.openSet.countP (fun nd => nd.state == c4dup))

/-- `g3` is reachable from `g` in exactly `k` legal moves. -/
inductive ReachIn (size : Nat) : Nat → Grid → Grid → Prop
  | refl (g : Grid) : ReachIn size 0 g g
  | step {g g2 g3 : Grid} {k : Nat} (h1 : g2 ∈ movesOf size g)
      (h2 : ReachIn size k g2 g3) : ReachIn size (k + 1) g g3

/-- `k` is the true minimum number of moves from `g` to `goal`. -/
def IsMinMoves (size : Nat) (g goal : Grid) (k : Nat) : Prop :=
  ReachIn size k g goal ∧ ∀ j, ReachIn size j g goal → k ≤ j

/-- A move chain: consecutive entries are legal moves. -/
def IsChain (size : Nat) (p : List Grid) : Prop :=
  ∀ j, j + 2 ≤ p.length → p.getD (j + 1) [] ∈ movesOf size (p.getD j [])

/-- A shortest-witness chain: `d + 1` states from `g0` to `goal`, consecutive
ones one legal move apart. -/
def GoodChain (size d : Nat) (g0 goal : Grid) (p : List Grid) : Prop :=
  p.length = d + 1 ∧ p.getD 0 [] = g0 ∧ p.getD d [] = goal ∧ IsChain size p

/-- Queue-node invariant for the optimality proof: the lineage invariant plus
reachability of the node's state in `depth` moves. -/
def NodeInvR (size : Nat) (g0 : Grid) (nd : PNode) : Prop :=
  NodeInv size g0 nd ∧ ReachIn size nd.depth g0 nd.state

/-- The BFS frontier covers the fixed shortest chain `p`: some queue node sits
on the chain at an index `j` with depth at most `j`, and no chain entry from
`j` on has been visited yet. -/
def Cover (size d : Nat) (p : List Grid) (c : SConfig) : Prop :=
  ∃ j, j ≤ d ∧ (∃ nd ∈ c.queue, nd.state = p.getD j [] ∧ nd.depth ≤ j)
    ∧ ∀ i, j ≤ i → i ≤ d → p.getD i [] ∉ c.visited

/-- The number of arrangements of the N² cell values, a bound on the visited
list of any search run. -/
def permBound (size : Nat) : Nat :=
  ((List.range (size * size)).permutations).length

/-- Termination measure of the BFS loop: each non-returning step strictly
decreases it. -/
def bfsMeasure (size : Nat) (c : SConfig) : Nat :=
  c.queue.length + 5 * (permBound size + 1 - c.visited.length)

/-- The full BFS loop invariant: queue nodes carry the lineage/reachability
invariant, queue depths are nondecreasing and within one of each other,
visited states are well-formed and pairwise distinct, and the frontier covers
the fixed shortest chain. -/
def BfsInv (size d : Nat) (g0 : Grid) (p : List Grid) (c : SConfig) : Prop :=
  (∀ nd ∈ c.queue, NodeInvR size g0 nd)
    ∧ c.queue.Pairwise (fun a b => a.depth ≤ b.depth)
    ∧ (∀ a ∈ c.queue, ∀ b ∈ c.queue, a.depth ≤ b.depth + 1)
    ∧ (∀ s ∈ c.visited, Wf size s)
    ∧ c.visited.Nodup
    ∧ Cover size d p c

/-! ## Basic facts about cells, the flattened grid and the blank -/

theorem sum_map_range {M : Type} [AddCommMonoid M] (f : Nat → M) (n : Nat) :
    ((List.range n).map f).sum = ∑ i ∈ Finset.range n, f i := by
  induction n with
  | zero => simp
  | succ n ih => simp [List.range_succ, Finset.sum_range_succ, ih]

theorem getD_of_lt {α : Type} (l : List α) (i : Nat) (d : α) (h : i < l.length) :
    l.getD i d = l[i] := by
  rw [List.getD_eq_getElem?_getD, List.getElem?_eq_getElem h, Option.getD_some]

theorem shape_row_length {size : Nat} {g : Grid} (hs : Shape size g)
    {i : Nat} (hi : i < size) : (g.getD i []).length = size := by
  obtain ⟨hl, hr⟩ := hs
  have hig : i < g.length := by omega
  rw [List.getD_eq_getElem?_getD, List.getElem?_eq_getElem hig]
  exact hr _ (List.getElem_mem hig)

theorem flatten_length {size : Nat} {g : Grid} (hs : Shape size g) :
    g.flatten.length = size * size := by
  obtain ⟨hl, hr⟩ := hs
  rw [List.length_flatten]
  have : g.map List.length = g.map (fun _ => size) := by
    apply List.map_congr_left
    intro row hrow; exact hr row hrow
  rw [this, List.map_const', List.sum_replicate, smul_eq_mul, hl, Nat.mul_comm]

theorem flatten_getD {size : Nat} :
    ∀ (g : Grid) (i j : Nat), (∀ row ∈ g, row.length = size) →
      i < g.length → j < size →
      g.flatten.getD (i * size + j) 0 = cell g i j := by
  intro g
  induction g with
  | nil => intro i j _ hi _; simp at hi
  | cons row rest ih =>
    intro i j hrows hi hj
    have hrowlen : row.length = size := hrows row (by simp)
    match i with
    | 0 =>
      show (row ++ rest.flatten).getD (0 * size + j) 0 = (row.getD j 0)
      rw [Nat.zero_mul, Nat.zero_add]
      exact List.getD_append _ _ _ _ (by omega)
    | i + 1 =>
      have hrest : (rest.flatten).getD (i * size + j) 0 = cell rest i j :=
        ih i j (fun r hr => hrows r (by simp [hr])) (by simpa using hi) hj
      show (row ++ rest.flatten).getD ((i + 1) * size + j) 0 = cell rest i j
      rw [List.getD_append_right _ _ _ _ (by rw [hrowlen]; nlinarith), hrowlen]
      have : (i + 1) * size + j - size = i * size + j := by ring_nf; omega
      rw [this, hrest]

/-- Two distinct positions holding the same value force a count of at least 2. -/
theorem two_le_count_of_two_getD {l : List Nat} {k1 k2 : Nat} {a : Nat}
    (hks : k1 < k2) (hk2 : k2 < l.length)
    (e1 : l.getD k1 0 = a) (e2 : l.getD k2 0 = a) : 2 ≤ l.count a := by
  have hk1 : k1 < l.length := by omega
  have hsplit : l = l.take k1 ++ l.drop k1 := (List.take_append_drop k1 l).symm
  have hdrop : l.drop k1 = l[k1] :: l.drop (k1 + 1) := List.drop_eq_getElem_cons hk1
  have he1 : l[k1] = a := by
    rw [List.getD_eq_getElem?_getD, List.getElem?_eq_getElem hk1] at e1
    simpa using e1
  have hmem : a ∈ l.drop (k1 + 1) := by
    have hlt : k2 - (k1 + 1) < (l.drop (k1 + 1)).length := by
      rw [List.length_drop]; omega
    have : (l.drop (k1 + 1))[k2 - (k1 + 1)] = l[k2] := by
      rw [List.getElem_drop]; congr 1; omega
    rw [List.getD_eq_getElem?_getD, List.getElem?_eq_getElem hk2] at e2
    rw [List.mem_iff_getElem]
    exact ⟨k2 - (k1 + 1), hlt, by simpa [this] using e2⟩
  have hpos : 0 < List.count a (l.drop (k1 + 1)) := List.count_pos_iff.mpr hmem
  calc 2 ≤ List.count a (l.drop k1) := by
        rw [hdrop, List.count_cons, he1]
        simp only [beq_self_eq_true, if_true]
        omega
    _ ≤ List.count a l := by
        conv_rhs => rw [hsplit]
        rw [List.count_append]; omega

theorem cell_index_inj {size i1 j1 i2 j2 : Nat} (hj1 : j1 < size) (hj2 : j2 < size)
    (h : i1 * size + j1 = i2 * size + j2) : i1 = i2 ∧ j1 = j2 := by
  have h1 : (i1 * size + j1) / size = i1 := by
    rw [Nat.mul_comm, Nat.mul_add_div (by omega), Nat.div_eq_of_lt hj1]; omega
  have h2 : (i2 * size + j2) / size = i2 := by
    rw [Nat.mul_comm, Nat.mul_add_div (by omega), Nat.div_eq_of_lt hj2]; omega
  have : i1 = i2 := by rw [← h1, ← h2, h]
  constructor
  · exact this
  · subst this; omega

theorem mem_rowMajor {size i j : Nat} :
    (i, j) ∈ rowMajor size ↔ i < size ∧ j < size := by
  simp only [rowMajor, List.mem_flatMap, List.mem_map, List.mem_range]
  constructor
  · rintro ⟨a, ha, b, hb, hab⟩
    obtain ⟨rfl, rfl⟩ := Prod.mk.injEq .. ▸ hab
    simp_all
  · rintro ⟨hi, hj⟩
    exact ⟨i, hi, j, hj, rfl⟩

/-- A grid with a 0 somewhere has a 0 cell in bounds. -/
theorem exists_blank_cell {size : Nat} {g : Grid} (hs : Shape size g)
    (hmem : 0 ∈ g.flatten) : ∃ i j, i < size ∧ j < size ∧ cell g i j = 0 := by
  rw [List.mem_flatten] at hmem
  obtain ⟨row, hrow, hzero⟩ := hmem
  obtain ⟨i, hig, hrowi⟩ := List.mem_iff_getElem.mp hrow
  obtain ⟨j, hjr, hzj⟩ := List.mem_iff_getElem.mp hzero
  refine ⟨i, j, by have := hs.1; omega, ?_, ?_⟩
  · have := hs.2 row hrow
    omega
  · have hrowD : g.getD i [] = row := by
      rw [List.getD_eq_getElem?_getD, List.getElem?_eq_getElem hig]
      simpa using hrowi
    unfold cell
    rw [hrowD, List.getD_eq_getElem?_getD, List.getElem?_eq_getElem hjr]
    simpa using hzj

/-- With exactly one blank, the blank's position is unique. -/
theorem blank_unique {size : Nat} {g : Grid} (hs : Shape size g)
    (hone : g.flatten.count 0 = 1) {i j i' j' : Nat}
    (hi : i < size) (hj : j < size) (hi' : i' < size) (hj' : j' < size)
    (hz : cell g i j = 0) (hz' : cell g i' j' = 0) : i' = i ∧ j' = j := by
  by_contra hne
  have hne2 : i' * size + j' ≠ i * size + j := by
    intro he
    obtain ⟨h1, h2⟩ := cell_index_inj hj' hj he
    exact hne ⟨h1, h2⟩
  have hf1 : g.flatten.getD (i * size + j) 0 = 0 :=
    (flatten_getD g i j hs.2 (by have := hs.1; omega) hj).trans hz
  have hf2 : g.flatten.getD (i' * size + j') 0 = 0 :=
    (flatten_getD g i' j' hs.2 (by have := hs.1; omega) hj').trans hz'
  have hlen := flatten_length hs
  have hb1 : i * size + j < g.flatten.length := by
    rw [hlen]; calc i * size + j < i * size + size := by omega
      _ ≤ size * size := by nlinarith
  have hb2 : i' * size + j' < g.flatten.length := by
    rw [hlen]; calc i' * size + j' < i' * size + size := by omega
      _ ≤ size * size := by nlinarith
  rcases Nat.lt_or_ge (i' * size + j') (i * size + j) with hlt | hge
  · have := two_le_count_of_two_getD hlt hb1 hf2 hf1; omega
  · have hlt : i * size + j < i' * size + j' := by omega
    have := two_le_count_of_two_getD hlt hb2 hf1 hf2; omega

/-- With exactly one blank on an N×N board, `getBlankPosition` finds it. -/
theorem getBlankPosition_eq {size : Nat} {g : Grid} (hs : Shape size g)
    (hone : g.flatten.count 0 = 1) {i j : Nat} (hi : i < size) (hj : j < size)
    (hz : cell g i j = 0) : getBlankPosition size g = .ok (i, j) := by
  have huniq : ∀ i' j', i' < size → j' < size → cell g i' j' = 0 → i' = i ∧ j' = j :=
    fun i' j' hi' hj' hz' => blank_unique hs hone hi hj hi' hj' hz hz'
  rcases hfind : (rowMajor size).find? (fun p => cell g p.1 p.2 == 0) with _ | p
  · exfalso
    have hall := List.find?_eq_none.mp hfind (i, j) (mem_rowMajor.mpr ⟨hi, hj⟩)
    exact hall (by simpa using hz)
  · have hpred := List.find?_some hfind
    have hpmem := List.mem_of_find?_eq_some hfind
    have hpz : cell g p.1 p.2 = 0 := by simpa using hpred
    have hpb : p.1 < size ∧ p.2 < size := by
      have hp : (p.1, p.2) ∈ rowMajor size := by simpa using hpmem
      exact mem_rowMajor.mp hp
    obtain ⟨h1, h2⟩ := huniq p.1 p.2 hpb.1 hpb.2 hpz
    unfold getBlankPosition
    rw [hfind]
    exact congrArg Except.ok (Prod.ext h1 h2)

/-! ## Solvability (claims about `isSolvable`) -/

/-- The nested counting loops of `countInversions` compute exactly the
specification's inversion count. -/
theorem countInversions_eq_spec (g : Grid) :
    countInversions g = specInversions g.flatten := by
  unfold countInversions specInversions
  rw [sum_map_range]
  rw [Finset.sum_congr rfl fun i _ => sum_map_range _ _]
  rw [Finset.card_filter, Finset.sum_product]

theorem isSolvable_of_blank {size : Nat} {g : Grid} {i j : Nat}
    (hb : getBlankPosition size g = .ok (i, j)) :
    isSolvable size g =
      .ok (if size % 2 = 1 then decide (countInversions g % 2 = 0)
        else decide (((size - i) % 2 = 0) ↔ (countInversions g % 2 = 1))) := by
  unfold isSolvable getBlankRowFromBottom
  rw [hb]
  by_cases hp : size % 2 = 1 <;>
    simp [bind, Except.bind, hp]

/-- C9: for odd N and exactly one blank, `isSolvable` returns true exactly when
the specification's inversion count (pairs `i < j`, both values non-blank,
`value[i] > value[j]`) is even. -/
theorem c9_theorem {size : Nat} {g : Grid} (hodd : size % 2 = 1)
    (hs : Shape size g) (hone : g.flatten.count 0 = 1) :
    isSolvable size g = .ok (decide (specInversions g.flatten % 2 = 0)) := by
  have hmem : (0 : Nat) ∈ g.flatten := by
    rw [← List.count_pos_iff]; omega
  obtain ⟨i, j, hi, hj, hz⟩ := exists_blank_cell hs hmem
  rw [isSolvable_of_blank (getBlankPosition_eq hs hone hi hj hz), if_pos hodd,
    countInversions_eq_spec]

/-- C9 witness: a concrete odd-size state, solvable since it has 0 inversions. -/
theorem c9_witness : isSolvable 3 [[1, 2, 3], [4, 0, 6], [7, 5, 8]] = .ok true := by
  have h := @c9_theorem 3 [[1, 2, 3], [4, 0, 6], [7, 5, 8]]
    (by decide) (by decide) (by decide)
  rw [h]
  decide

/-- C1 counterexample: the 2×2 goal state. Its blank row counted from the
bottom is 1 (odd) and it has 0 inversions (even), so the claimed XOR is false,
yet `isSolvable` returns true (and indeed the state is solvable: it is the
goal). -/
theorem c1_counterexample :
    getBlankPosition 2 [[1, 2], [3, 0]] = .ok (1, 1)
      ∧ isSolvable 2 [[1, 2], [3, 0]] = .ok true
      ∧ ¬ Xor' ((2 - 1) % 2 = 0)
          (specInversions (([[1, 2], [3, 0]] : Grid).flatten) % 2 = 1) := by
  refine ⟨by decide, by decide, ?_⟩
  rw [Xor']
  decide

/-- C1 amended: for even N the code declares a state solvable exactly when
(blank row from the bottom is even) is EQUIVALENT to (inversions odd) — the
negation of the claimed XOR. -/
theorem c1_theorem {size : Nat} {g : Grid} (heven : size % 2 = 0)
    (hs : Shape size g) (hone : g.flatten.count 0 = 1)
    {i j : Nat} (hi : i < size) (hj : j < size) (hz : cell g i j = 0) :
    isSolvable size g =
      .ok (decide (((size - i) % 2 = 0) ↔ (specInversions g.flatten % 2 = 1))) := by
  rw [isSolvable_of_blank (getBlankPosition_eq hs hone hi hj hz),
    if_neg (by omega), countInversions_eq_spec]

/-- C1 witness: the amended statement applied to the 2×2 goal state. -/
theorem c1_witness : isSolvable 2 [[1, 2], [3, 0]] = .ok true := by
  have h := @c1_theorem 2 [[1, 2], [3, 0]] (by decide) (by decide)
    (by decide) 1 1 (by decide) (by decide) (by decide)
  rw [h]
  decide

/-! ## The Hamming heuristic (claim C7) -/

/-- Nested grid sums as one sum over the index square. -/
theorem grid_sum_eq (f : Nat → Nat → Nat) (n : Nat) :
    ((List.range n).map fun i => ((List.range n).map fun j => f i j).sum).sum
      = ∑ p ∈ Finset.range n ×ˢ Finset.range n, f p.1 p.2 := by
  rw [sum_map_range]
  rw [Finset.sum_congr rfl fun i _ => sum_map_range _ _]
  rw [Finset.sum_product]

/-- The cells of the canonical goal grid. -/
theorem cell_generateGoalState {n i j : Nat} (hi : i < n) (hj : j < n) :
    cell (generateGoalState n) i j =
      if i = n - 1 ∧ j = n - 1 then 0 else i * n + j + 1 := by
  unfold generateGoalState cell
  dsimp only
  have hlen : ((List.range n).map fun i =>
      (List.range n).map fun j => i * n + j + 1).length = n := by simp
  have hig : i < (((List.range n).map fun i =>
      (List.range n).map fun j => i * n + j + 1).modify
      (fun row => row.set (n - 1) 0) (n - 1)).length := by
    rw [List.length_modify]; omega
  rw [List.getD_eq_getElem?_getD _ i [], List.getElem?_eq_getElem hig,
    Option.getD_some, List.getElem_modify]
  simp only [List.getElem_map, List.getElem_range]
  by_cases hcorner : n - 1 = i
  · rw [if_pos hcorner]
    by_cases hjc : n - 1 = j
    · rw [List.getD_eq_getElem?_getD, List.getElem?_eq_getElem (by
        rw [List.length_set]; simpa using hj), Option.getD_some,
        List.getElem_set, if_pos hjc, if_pos ⟨hcorner.symm, hjc.symm⟩]
    · rw [List.getD_eq_getElem?_getD, List.getElem?_eq_getElem (by
        rw [List.length_set]; simpa using hj), Option.getD_some,
        List.getElem_set, if_neg hjc]
      simp only [List.getElem_map, List.getElem_range]
      rw [if_neg (by omega)]
  · rw [if_neg hcorner]
    rw [List.getD_eq_getElem?_getD, List.getElem?_eq_getElem (by simpa using hj),
      Option.getD_some, List.getElem_map, List.getElem_range]
    rw [if_neg (by omega)]

/-- Every cell of a well-formed grid is below N². -/
theorem cell_lt {size : Nat} {g : Grid} (hwf : Wf size g)
    {i j : Nat} (hi : i < size) (hj : j < size) : cell g i j < size * size := by
  obtain ⟨hs, hperm⟩ := hwf
  have hidx : i * size + j < g.flatten.length := by
    rw [flatten_length hs]
    calc i * size + j < i * size + size := by omega
      _ ≤ size * size := by nlinarith
  have hcell : g.flatten.getD (i * size + j) 0 = cell g i j :=
    flatten_getD g i j hs.2 (by have := hs.1; omega) hj
  rw [List.getD_eq_getElem?_getD, List.getElem?_eq_getElem hidx,
    Option.getD_some] at hcell
  rw [← hcell]
  have hmem : g.flatten[i * size + j] ∈ g.flatten := List.getElem_mem hidx
  have := hperm.mem_iff.mp hmem
  exact List.mem_range.mp this

/-- A well-formed grid has exactly one blank. -/
theorem wf_one_blank {size : Nat} {g : Grid} (hwf : Wf size g) (hpos : 1 ≤ size) :
    g.flatten.count 0 = 1 := by
  rw [hwf.2.count_eq]
  exact List.count_eq_one_of_mem (List.nodup_range _)
    (List.mem_range.mpr (by nlinarith))

/-- C7 counterexample: with the blank off its goal cell, `hammingDistance`
counts it: only tile 8 is misplaced, yet the code returns 2. -/
theorem c7_counterexample :
    hammingDistance 3 [[1, 2, 3], [4, 5, 6], [7, 0, 8]] = 2
      ∧ specMisplacedNonBlank 3 [[1, 2, 3], [4, 5, 6], [7, 0, 8]] = 1 := by
  constructor <;> decide

theorem index_div_mod {size i j : Nat} (hpos : 1 ≤ size) (hj : j < size) :
    (i * size + j) / size = i ∧ (i * size + j) % size = j := by
  constructor
  · rw [Nat.mul_comm, Nat.mul_add_div (by omega), Nat.div_eq_of_lt hj]; omega
  · rw [Nat.mul_comm, Nat.mul_add_mod, Nat.mod_eq_of_lt hj]

/-- C7 amended: `hammingDistance` counts the blank as well — it equals the
number of misplaced non-blank tiles plus one whenever the blank is away from
its goal cell (the bottom-right corner). -/
theorem c7_theorem {size : Nat} {g : Grid} (hwf : Wf size g) (hpos : 1 ≤ size) :
    hammingDistance size g
      = specMisplacedNonBlank size g
        + (if cell g (size - 1) (size - 1) = 0 then 0 else 1) := by
  obtain ⟨hs, hperm⟩ := hwf
  have hone : g.flatten.count 0 = 1 := wf_one_blank ⟨hs, hperm⟩ hpos
  obtain ⟨bi, bj, hbi, hbj, hbz⟩ :=
    exists_blank_cell hs (by rw [← List.count_pos_iff]; omega)
  have hpoint : ∀ p ∈ Finset.range size ×ˢ Finset.range size,
      (if cell g p.1 p.2 ≠ cell (generateGoalState size) p.1 p.2 then 1 else 0)
        = ((if cell g p.1 p.2 ≠ 0
              ∧ ¬((cell g p.1 p.2 - 1) / size = p.1
                  ∧ (cell g p.1 p.2 - 1) % size = p.2) then 1 else 0)
          + (if cell g p.1 p.2 = 0 ∧ ¬(p.1 = size - 1 ∧ p.2 = size - 1)
              then 1 else 0) : Nat) := by
    rintro ⟨i, j⟩ hp
    rw [Finset.mem_product] at hp
    dsimp only at hp ⊢
    have hi : i < size := Finset.mem_range.mp hp.1
    have hj : j < size := Finset.mem_range.mp hp.2
    rw [cell_generateGoalState hi hj]
    by_cases hv : cell g i j = 0
    · rw [hv]
      by_cases hc : i = size - 1 ∧ j = size - 1
      · rw [if_pos hc]; simp [hc]
      · rw [if_neg hc]; simp [hc]
    · have hvlt : cell g i j < size * size := cell_lt ⟨hs, hperm⟩ hi hj
      have hsecond : (if cell g i j = 0 ∧ ¬(i = size - 1 ∧ j = size - 1)
          then 1 else 0 : Nat) = 0 := by simp [hv]
      rw [hsecond, Nat.add_zero]
      by_cases hc : i = size - 1 ∧ j = size - 1
      · obtain ⟨hc1, hc2⟩ := hc
        subst hc1
        subst hc2
        rw [if_pos (⟨rfl, rfl⟩ : size - 1 = size - 1 ∧ size - 1 = size - 1),
          if_pos hv, if_pos ?side]
        case side =>
          refine ⟨hv, ?_⟩
          rintro ⟨hdiv, hmod⟩
          have hvm := Nat.div_add_mod (cell g (size - 1) (size - 1) - 1) size
          rw [hdiv, hmod] at hvm
          have h1 : 1 ≤ cell g (size - 1) (size - 1) := Nat.one_le_iff_ne_zero.mpr hv
          have hexp : size * size = size * (size - 1) + size := by
            obtain ⟨m, rfl⟩ : ∃ m, size = m + 1 := ⟨size - 1, by omega⟩
            simp
            ring
          generalize hA : size * (size - 1) = A at hvm hexp
          omega
      · rw [if_neg hc]
        have hiff : cell g i j = i * size + j + 1
            ↔ ((cell g i j - 1) / size = i ∧ (cell g i j - 1) % size = j) := by
          constructor
          · intro he
            rw [he, Nat.add_sub_cancel]
            exact index_div_mod hpos hj
          · rintro ⟨hdiv, hmod⟩
            have hvm := Nat.div_add_mod (cell g i j - 1) size
            rw [hdiv, hmod, Nat.mul_comm size i] at hvm
            have h1 : 1 ≤ cell g i j := Nat.one_le_iff_ne_zero.mpr hv
            generalize hB : i * size = B at hvm ⊢
            omega
        by_cases he : cell g i j = i * size + j + 1
        · rw [if_neg (by omega), if_neg (by
            rintro ⟨_, habs⟩
            exact habs (hiff.mp he))]
        · rw [if_pos (by omega), if_pos ⟨hv, fun habs => he (hiff.mpr habs)⟩]
  have hsum3 : (∑ p ∈ Finset.range size ×ˢ Finset.range size,
      (if cell g p.1 p.2 = 0 ∧ ¬(p.1 = size - 1 ∧ p.2 = size - 1)
        then 1 else 0 : Nat))
      = if cell g (size - 1) (size - 1) = 0 then 0 else 1 := by
    by_cases hcz : cell g (size - 1) (size - 1) = 0
    · rw [if_pos hcz]
      apply Finset.sum_eq_zero
      rintro ⟨i, j⟩ hp
      rw [Finset.mem_product] at hp
      dsimp only at hp ⊢
      have hi : i < size := Finset.mem_range.mp hp.1
      have hj : j < size := Finset.mem_range.mp hp.2
      rw [if_neg]
      rintro ⟨hz', hnc⟩
      exact hnc ⟨(blank_unique hs hone (by omega) (by omega) hi hj hcz hz').1,
        (blank_unique hs hone (by omega) (by omega) hi hj hcz hz').2⟩
    · rw [if_neg hcz]
      rw [Finset.sum_eq_single ((bi, bj) : Nat × Nat)]
      · rw [if_pos ⟨hbz, by
          rintro ⟨h1, h2⟩
          have h1' : bi = size - 1 := h1
          have h2' : bj = size - 1 := h2
          rw [h1', h2'] at hbz
          exact hcz hbz⟩]
      · rintro ⟨i, j⟩ hp hne
        rw [Finset.mem_product] at hp
        dsimp only at hp ⊢
        have hi : i < size := Finset.mem_range.mp hp.1
        have hj : j < size := Finset.mem_range.mp hp.2
        rw [if_neg]
        rintro ⟨hz', _⟩
        obtain ⟨h1, h2⟩ := blank_unique hs hone hbi hbj hi hj hbz hz'
        exact hne (by rw [h1, h2])
      · intro habs
        exact absurd (Finset.mem_product.mpr
          ⟨Finset.mem_range.mpr hbi, Finset.mem_range.mpr hbj⟩) habs
  unfold hammingDistance specMisplacedNonBlank
  rw [grid_sum_eq (fun i j =>
    if cell g i j ≠ cell (generateGoalState size) i j then 1 else 0)]
  rw [Finset.sum_congr rfl hpoint, Finset.sum_add_distrib, hsum3,
    Finset.card_filter]

/-- C7 witness: the amended statement applied to a state with the blank off its
goal cell. -/
theorem c7_witness :
    hammingDistance 3 [[1, 2, 3], [4, 5, 6], [7, 0, 8]]
      = specMisplacedNonBlank 3 [[1, 2, 3], [4, 5, 6], [7, 0, 8]] + 1 := by
  have h := @c7_theorem 3 [[1, 2, 3], [4, 5, 6], [7, 0, 8]]
    (by decide) (by decide)
  rw [h]
  decide

/-! ## The linear-conflicts heuristic (claim C6) -/

/-- C6 counterexample: swapping tiles 1 and 2 of the 3×3 goal grid gives
Manhattan distance 2 and one row conflict, so the claimed value is 4 — but
`linearConflicts` returns 0 (it adds no Manhattan term and compares tile-value
coordinates positionally rather than counting reversed pairs). -/
theorem c6_counterexample :
    linearConflicts 3 [[2, 1, 3], [4, 5, 6], [7, 8, 0]] = 0
      ∧ specLinearConflicts 3 [[2, 1, 3], [4, 5, 6], [7, 8, 0]] = 4
      ∧ linearConflicts 3 [[2, 1, 3], [4, 5, 6], [7, 8, 0]]
          ≠ specLinearConflicts 3 [[2, 1, 3], [4, 5, 6], [7, 8, 0]] := by
  refine ⟨by decide, by decide, by decide⟩

/-- The per-line loop of `countLinearConflicts` as a cardinality. -/
theorem countLinearConflicts_eq (tiles goalTiles : List Nat) :
    countLinearConflicts tiles goalTiles
      = ((Finset.range tiles.length).filter fun i =>
          tiles.getD i 0 ≠ 0 ∧ goalTiles.getD i 0 ≠ 0
            ∧ tiles.getD i 0 / tiles.length = goalTiles.getD i 0 / tiles.length
            ∧ tiles.getD i 0 % tiles.length < goalTiles.getD i 0 % tiles.length
            ∧ goalTiles.getD i 0 % tiles.length < tiles.length - 1).card := by
  unfold countLinearConflicts
  rw [sum_map_range, Finset.card_filter]
  apply Finset.sum_congr rfl
  intro i _
  dsimp only
  by_cases h1 : tiles.getD i 0 ≠ 0 ∧ goalTiles.getD i 0 ≠ 0
  · rw [if_pos h1]
    by_cases h2 : tiles.getD i 0 / tiles.length
        = goalTiles.getD i 0 / tiles.length
    · rw [if_pos h2]
      by_cases h3 : tiles.getD i 0 % tiles.length
            < goalTiles.getD i 0 % tiles.length
          ∧ goalTiles.getD i 0 % tiles.length < tiles.length - 1
      · rw [if_pos h3, if_pos ⟨h1.1, h1.2, h2, h3.1, h3.2⟩]
      · rw [if_neg h3, if_neg (by rintro ⟨_, _, _, d, e⟩; exact h3 ⟨d, e⟩)]
    · rw [if_neg h2, if_neg (by rintro ⟨_, _, c, _, _⟩; exact h2 c)]
  · rw [if_neg h1, if_neg (by rintro ⟨a, b, _, _, _⟩; exact h1 ⟨a, b⟩)]

/-- The goal grid is N×N. -/
theorem shape_generateGoalState (size : Nat) : Shape size (generateGoalState size) := by
  constructor
  · simp [generateGoalState, List.length_modify]
  · intro row hrow
    unfold generateGoalState at hrow
    dsimp only at hrow
    obtain ⟨k, hk, hrk⟩ := List.mem_iff_getElem.mp hrow
    rw [List.getElem_modify] at hrk
    rw [List.length_modify, List.length_map, List.length_range] at hk
    by_cases hkc : size - 1 = k
    · rw [if_pos hkc] at hrk
      rw [← hrk, List.length_set, List.getElem_map, List.length_map,
        List.length_range]
    · rw [if_neg hkc] at hrk
      rw [← hrk, List.getElem_map, List.length_map, List.length_range]

theorem column_length (g : Grid) (j : Nat) : (column g j).length = g.length := by
  simp [column]

theorem column_getD {g : Grid} {i : Nat} (hig : i < g.length) (j : Nat) :
    (column g j).getD i 0 = cell g i j := by
  unfold column cell
  rw [List.getD_eq_getElem?_getD, List.getElem?_eq_getElem (by simpa using hig),
    Option.getD_some, List.getElem_map,
    List.getD_eq_getElem?_getD _ i [], List.getElem?_eq_getElem hig,
    Option.getD_some]

/-- C6 amended: what `linearConflicts` actually returns on an N×N state — no
Manhattan term, and a positional count per row and column: position k conflicts
when the current tile and the goal tile there are both non-zero, agree on
`tile / N`, have `tile % N < goalTile % N`, and `goalTile % N < N − 1`. -/
theorem c6_theorem {size : Nat} {g : Grid} (hs : Shape size g) :
    linearConflicts size g
      = (∑ i ∈ Finset.range size,
          ((Finset.range size).filter fun k =>
            cell g i k ≠ 0 ∧ cell (generateGoalState size) i k ≠ 0
              ∧ cell g i k / size = cell (generateGoalState size) i k / size
              ∧ cell g i k % size < cell (generateGoalState size) i k % size
              ∧ cell (generateGoalState size) i k % size < size - 1).card)
        + (∑ j ∈ Finset.range size,
          ((Finset.range size).filter fun k =>
            cell g k j ≠ 0 ∧ cell (generateGoalState size) k j ≠ 0
              ∧ cell g k j / size = cell (generateGoalState size) k j / size
              ∧ cell g k j % size < cell (generateGoalState size) k j % size
              ∧ cell (generateGoalState size) k j % size < size - 1).card) := by
  have hgs := shape_generateGoalState size
  unfold linearConflicts
  dsimp only
  rw [sum_map_range, sum_map_range]
  congr 1
  · apply Finset.sum_congr rfl
    intro i hi
    have hlen : (g.getD i []).length = size :=
      shape_row_length hs (Finset.mem_range.mp hi)
    rw [countLinearConflicts_eq, hlen]
    congr 1
  · apply Finset.sum_congr rfl
    intro j hj
    have hlen : (column g j).length = size := by
      rw [column_length, hs.1]
    rw [countLinearConflicts_eq, hlen]
    congr 1
    apply Finset.filter_congr
    intro k hk
    have hkr := Finset.mem_range.mp hk
    rw [column_getD (by rw [hs.1]; exact hkr) j,
      column_getD (by rw [hgs.1]; exact hkr) j]

/-- C6 witness: the amended characterization at the counterexample state. -/
theorem c6_witness :
    linearConflicts 3 [[2, 1, 3], [4, 5, 6], [7, 8, 0]] = 0 := by
  have h := @c6_theorem 3 [[2, 1, 3], [4, 5, 6], [7, 8, 0]]
    (by decide)
  rw [h]
  decide

/-! ## Unknown algorithm / unknown heuristic (claim C8) -/

/-- C8 counterexample: an unrecognized algorithm name does not produce an
unknown-algorithm error — `solve` falls through every branch to the generic
`No solution found` throw. -/
theorem c8_counterexample :
    solve 3 (generateGoalState 3) "greedy" (manhattanDistance 3) 5
        = some (.error "No solution found")
      ∧ "No solution found" ≠ "Unknown algorithm: greedy" := by
  refine ⟨by rfl, by decide⟩

/-- C8 amended: an algorithm name outside bfs/dfs/astar makes `solve` throw
`No solution found` for every state and any amount of fuel (no search is run),
while an unrecognized heuristic name makes the heuristic dispatch throw
`Unknown heuristic: <name>`. -/
theorem c8_theorem :
    (∀ (size : Nat) (g : Grid) (h : Grid → Nat) (fuel : Nat) (alg : String),
      alg ≠ "bfs" → alg ≠ "dfs" → alg ≠ "astar" →
        solve size g alg h fuel = some (.error "No solution found"))
    ∧ (∀ heuristic : String, heuristic ≠ "hamming" →
        heuristic ≠ "linearConflicts" → heuristic ≠ "euclidean" →
        heuristic ≠ "manhattan" →
          getHeuristicDispatch heuristic
            = .error ("Unknown heuristic: " ++ heuristic)) := by
  constructor
  · intro size g h fuel alg h1 h2 h3
    unfold solve
    rw [if_neg h1, if_neg h2, if_neg h3]
  · intro heuristic h1 h2 h3 h4
    unfold getHeuristicDispatch
    split <;> simp_all

/-- C8 witness: the amended statement at concrete unknown names. -/
theorem c8_witness :
    solve 3 [[0]] "greedy" (fun _ => 0) 7 = some (.error "No solution found")
      ∧ getHeuristicDispatch "foo" = .error ("Unknown heuristic: " ++ "foo") :=
  ⟨c8_theorem.1 3 [[0]] (fun _ => 0) 7 "greedy" (by decide) (by decide) (by decide),
    c8_theorem.2 "foo" (by decide) (by decide) (by decide) (by decide)⟩

/-! ## Cell updates and swaps -/

theorem shape_setCell {size : Nat} {g : Grid} (hs : Shape size g)
    (i j v : Nat) : Shape size (setCell g i j v) := by
  constructor
  · rw [setCell, List.length_modify, hs.1]
  · intro row hrow
    rw [setCell] at hrow
    obtain ⟨k, hk, hrk⟩ := List.mem_iff_getElem.mp hrow
    rw [List.getElem_modify] at hrk
    rw [List.length_modify] at hk
    by_cases hik : i = k
    · rw [if_pos hik] at hrk
      rw [← hrk, List.length_set]
      exact hs.2 _ (List.getElem_mem hk)
    · rw [if_neg hik] at hrk
      rw [← hrk]
      exact hs.2 _ (List.getElem_mem hk)

theorem cell_setCell {size : Nat} {g : Grid} (hs : Shape size g)
    {i j : Nat} (hi : i < size) (hj : j < size) (v : Nat)
    {a b : Nat} (ha : a < size) (hb : b < size) :
    cell (setCell g i j v) a b = if a = i ∧ b = j then v else cell g a b := by
  have hlg : g.length = size := hs.1
  have harow : (setCell g i j v).getD a []
      = if i = a then (g.getD a []).set j v else g.getD a [] := by
    unfold setCell
    have hag : a < (g.modify (fun row => row.set j v) i).length := by
      rw [List.length_modify]; omega
    rw [List.getD_eq_getElem?_getD _ a [], List.getElem?_eq_getElem hag,
      Option.getD_some, List.getElem_modify,
      List.getD_eq_getElem?_getD _ a [], List.getElem?_eq_getElem (by omega : a < g.length),
      Option.getD_some]
  unfold cell
  rw [harow]
  by_cases hia : i = a
  · rw [if_pos hia]
    have hrl : (g.getD a []).length = size := shape_row_length hs ha
    by_cases hjb : b = j
    · rw [if_pos ⟨hia.symm, hjb⟩, hjb]
      rw [List.getD_eq_getElem?_getD, List.getElem?_eq_getElem (by
        rw [List.length_set]; omega), Option.getD_some, List.getElem_set,
        if_pos rfl]
    · rw [if_neg (by rintro ⟨_, hbj⟩; exact hjb hbj)]
      have hbl : b < ((g.getD a []).set j v).length := by
        rw [List.length_set]; omega
      rw [getD_of_lt _ _ _ hbl, List.getElem_set, if_neg (by omega),
        getD_of_lt _ _ _ (by omega : b < (g.getD a []).length)]
  · rw [if_neg hia, if_neg (by rintro ⟨hai, _⟩; exact hia hai.symm)]

theorem shape_swapCells {size : Nat} {g : Grid} (hs : Shape size g)
    (i1 j1 i2 j2 : Nat) : Shape size (swapCells g i1 j1 i2 j2) :=
  shape_setCell (shape_setCell hs i1 j1 _) i2 j2 _

theorem cell_swapCells {size : Nat} {g : Grid} (hs : Shape size g)
    {i1 j1 i2 j2 : Nat} (hi1 : i1 < size) (hj1 : j1 < size)
    (hi2 : i2 < size) (hj2 : j2 < size) {a b : Nat} (ha : a < size) (hb : b < size) :
    cell (swapCells g i1 j1 i2 j2) a b =
      if a = i2 ∧ b = j2 then cell g i1 j1
      else if a = i1 ∧ b = j1 then cell g i2 j2
      else cell g a b := by
  unfold swapCells
  rw [cell_setCell (shape_setCell hs i1 j1 _) hi2 hj2 _ ha hb]
  by_cases h2 : a = i2 ∧ b = j2
  · rw [if_pos h2, if_pos h2]
  · rw [if_neg h2, if_neg h2, cell_setCell hs hi1 hj1 _ ha hb]

theorem flatten_setCell {size : Nat} :
    ∀ (g : Grid) (i j v : Nat), (∀ row ∈ g, row.length = size) →
      i < g.length → j < size →
      (setCell g i j v).flatten = g.flatten.set (i * size + j) v := by
  intro g
  induction g with
  | nil => intro i j v _ hi _; simp at hi
  | cons row rest ih =>
    intro i j v hrows hi hj
    have hrowlen : row.length = size := hrows row (by simp)
    match i with
    | 0 =>
      show ((row.set j v) :: rest).flatten = (row ++ rest.flatten).set (0 * size + j) v
      rw [List.flatten_cons, Nat.zero_mul, Nat.zero_add, List.set_append,
        if_pos (by omega)]
    | i + 1 =>
      show (row :: setCell rest i j v).flatten
        = (row ++ rest.flatten).set ((i + 1) * size + j) v
      rw [List.flatten_cons, List.set_append, if_neg (by rw [hrowlen]; nlinarith)]
      rw [ih i j v (fun r hr => hrows r (by simp [hr])) (by simpa using hi) hj,
        hrowlen]
      congr 2
      ring_nf
      omega

theorem set_set_perm_getElem (l : List Nat) (k1 k2 : Nat)
    (h1 : k1 < l.length) (h2 : k2 < l.length) :
    ((l.set k1 (l[k2])).set k2 (l[k1])).Perm l := by
  rw [List.perm_iff_count]
  intro a
  have h2s : k2 < (l.set k1 (l[k2])).length := by rw [List.length_set]; omega
  have hc1 : l[k1] = a → 1 ≤ l.count a :=
    fun he => List.count_pos_iff.mpr (he ▸ List.getElem_mem h1)
  rw [List.count_set _ _ _ _ h2s, List.count_set _ _ _ _ h1, List.getElem_set,
    ite_self]
  simp only [beq_iff_eq]
  by_cases he1 : l[k1] = a <;> by_cases he2 : l[k2] = a
  · have t1 := hc1 he1
    rw [if_pos he1, if_pos he2]
    omega
  · have t1 := hc1 he1
    rw [if_pos he1, if_neg he2]
    omega
  · rw [if_neg he1, if_pos he2]
    omega
  · rw [if_neg he1, if_neg he2]
    omega

theorem set_set_perm (l : List Nat) (k1 k2 : Nat)
    (h1 : k1 < l.length) (h2 : k2 < l.length) :
    ((l.set k1 (l.getD k2 0)).set k2 (l.getD k1 0)).Perm l := by
  rw [getD_of_lt _ _ _ h1, getD_of_lt _ _ _ h2]
  exact set_set_perm_getElem l k1 k2 h1 h2

/-- A swap of two in-bounds cells keeps the state well-formed. -/
theorem wf_swapCells {size : Nat} {g : Grid} (hwf : Wf size g)
    {i1 j1 i2 j2 : Nat} (hi1 : i1 < size) (hj1 : j1 < size)
    (hi2 : i2 < size) (hj2 : j2 < size) :
    Wf size (swapCells g i1 j1 i2 j2) := by
  obtain ⟨hs, hperm⟩ := hwf
  refine ⟨shape_swapCells hs i1 j1 i2 j2, ?_⟩
  have hb1 : i1 * size + j1 < g.flatten.length := by
    rw [flatten_length hs]
    calc i1 * size + j1 < i1 * size + size := by omega
      _ ≤ size * size := by nlinarith
  have hb2 : i2 * size + j2 < g.flatten.length := by
    rw [flatten_length hs]
    calc i2 * size + j2 < i2 * size + size := by omega
      _ ≤ size * size := by nlinarith
  have hflat : (swapCells g i1 j1 i2 j2).flatten
      = (g.flatten.set (i1 * size + j1) (g.flatten.getD (i2 * size + j2) 0)).set
          (i2 * size + j2) (g.flatten.getD (i1 * size + j1) 0) := by
    unfold swapCells
    have hs1 : Shape size (setCell g i1 j1 (cell g i2 j2)) :=
      shape_setCell hs i1 j1 _
    rw [flatten_setCell _ i2 j2 _ hs1.2 (by rw [hs1.1]; omega) hj2,
      flatten_setCell g i1 j1 _ hs.2 (by rw [hs.1]; omega) hj1,
      ← flatten_getD g i2 j2 hs.2 (by rw [hs.1]; omega) hj2,
      ← flatten_getD g i1 j1 hs.2 (by rw [hs.1]; omega) hj1]
  rw [hflat]
  exact (set_set_perm g.flatten _ _ hb1 hb2).trans hperm

/-! ## The move generator (claim C10) -/

theorem getPossibleMoves_ok {size : Nat} {g : Grid} {bi bj : Nat}
    (hb : getBlankPosition size g = .ok (bi, bj)) :
    getPossibleMoves size g = .ok (directions.filterMap fun d =>
      let newRow : Int := (bi : Int) + d.1
      let newCol : Int := (bj : Int) + d.2
      if 0 ≤ newRow ∧ newRow < size ∧ 0 ≤ newCol ∧ newCol < size then
        some (swapCells g bi bj newRow.toNat newCol.toNat)
      else none) := by
  unfold getPossibleMoves
  rw [hb]
  rfl

theorem mem_moves_iff {size : Nat} {g m : Grid} {bi bj : Nat}
    (hbi : bi < size) (hbj : bj < size)
    (hb : getBlankPosition size g = .ok (bi, bj)) {ms : List Grid}
    (hms : getPossibleMoves size g = .ok ms) :
    m ∈ ms ↔ AdjSwap size g m bi bj := by
  rw [getPossibleMoves_ok hb] at hms
  have hms2 : ms = directions.filterMap fun d =>
      let newRow : Int := (bi : Int) + d.1
      let newCol : Int := (bj : Int) + d.2
      if 0 ≤ newRow ∧ newRow < size ∧ 0 ≤ newCol ∧ newCol < size then
        some (swapCells g bi bj newRow.toNat newCol.toNat)
      else none := by
    have := hms
    simp only [Except.ok.injEq] at this
    exact this.symm
  subst hms2
  rw [List.mem_filterMap]
  constructor
  · rintro ⟨d, hd, hfd⟩
    have hd4 : d = ((-1 : Int), (0 : Int)) ∨ d = (1, 0) ∨ d = (0, -1)
        ∨ d = (0, 1) := by
      simpa [directions] using hd
    rcases hd4 with rfl | rfl | rfl | rfl <;>
      dsimp only at hfd <;>
      rw [ite_eq_iff] at hfd <;>
      rcases hfd with ⟨hcond, hsome⟩ | ⟨_, habs⟩ <;>
        try exact absurd habs (by simp)
    · exact ⟨((bi : Int) + (-1)).toNat, ((bj : Int) + 0).toNat,
        by omega, by omega, Or.inl ⟨by omega, by omega⟩,
        (Option.some.injEq .. ▸ hsome).symm⟩
    · exact ⟨((bi : Int) + 1).toNat, ((bj : Int) + 0).toNat,
        by omega, by omega, Or.inr (Or.inl ⟨by omega, by omega⟩),
        (Option.some.injEq .. ▸ hsome).symm⟩
    · exact ⟨((bi : Int) + 0).toNat, ((bj : Int) + (-1)).toNat,
        by omega, by omega, Or.inr (Or.inr (Or.inl ⟨by omega, by omega⟩)),
        (Option.some.injEq .. ▸ hsome).symm⟩
    · exact ⟨((bi : Int) + 0).toNat, ((bj : Int) + 1).toNat,
        by omega, by omega, Or.inr (Or.inr (Or.inr ⟨by omega, by omega⟩)),
        (Option.some.injEq .. ▸ hsome).symm⟩
  · rintro ⟨ni, nj, hni, hnj, hcase, rfl⟩
    rcases hcase with ⟨h1, h2⟩ | ⟨h1, h2⟩ | ⟨h1, h2⟩ | ⟨h1, h2⟩
    · refine ⟨(-1, 0), by simp [directions], ?_⟩
      dsimp only
      rw [if_pos ⟨by omega, by omega, by omega, by omega⟩]
      congr 2 <;> omega
    · refine ⟨(1, 0), by simp [directions], ?_⟩
      dsimp only
      rw [if_pos ⟨by omega, by omega, by omega, by omega⟩]
      congr 2 <;> omega
    · refine ⟨(0, -1), by simp [directions], ?_⟩
      dsimp only
      rw [if_pos ⟨by omega, by omega, by omega, by omega⟩]
      congr 2 <;> omega
    · refine ⟨(0, 1), by simp [directions], ?_⟩
      dsimp only
      rw [if_pos ⟨by omega, by omega, by omega, by omega⟩]
      congr 2 <;> omega

/-- C10: on a well-formed N×N state, `getPossibleMoves` succeeds and every
returned grid is again well-formed (an N×N permutation of 0..N²−1 with exactly
one 0) and differs from the input only by swapping the 0 with one orthogonally
adjacent cell. The embedded functions are pure, so the input grid itself
cannot be mutated by the call (the source copies each row before swapping). -/
theorem c10_theorem {size : Nat} {g : Grid} (hwf : Wf size g) (hpos : 1 ≤ size) :
    ∃ bi bj moves, getBlankPosition size g = .ok (bi, bj)
      ∧ bi < size ∧ bj < size ∧ cell g bi bj = 0
      ∧ getPossibleMoves size g = .ok moves
      ∧ ∀ m ∈ moves, Wf size m
          ∧ ∃ ni nj, ni < size ∧ nj < size
            ∧ ((ni + 1 = bi ∧ nj = bj) ∨ (ni = bi + 1 ∧ nj = bj)
              ∨ (ni = bi ∧ nj + 1 = bj) ∨ (ni = bi ∧ nj = bj + 1))
            ∧ m = swapCells g bi bj ni nj
            ∧ cell m ni nj = 0 ∧ cell m bi bj = cell g ni nj
            ∧ ∀ a b, a < size → b < size → ¬(a = bi ∧ b = bj)
                → ¬(a = ni ∧ b = nj) → cell m a b = cell g a b := by
  obtain ⟨hs, hperm⟩ := hwf
  have hone : g.flatten.count 0 = 1 := wf_one_blank ⟨hs, hperm⟩ hpos
  obtain ⟨bi, bj, hbi, hbj, hbz⟩ :=
    exists_blank_cell hs (by rw [← List.count_pos_iff]; omega)
  have hb : getBlankPosition size g = .ok (bi, bj) :=
    getBlankPosition_eq hs hone hbi hbj hbz
  have hmv := getPossibleMoves_ok hb
  refine ⟨bi, bj, _, hb, hbi, hbj, hbz, hmv, ?_⟩
  intro m hm
  have hadj : AdjSwap size g m bi bj :=
    (mem_moves_iff hbi hbj hb hmv).mp hm
  obtain ⟨ni, nj, hni, hnj, hcase, rfl⟩ := hadj
  have hdiff : ¬(ni = bi ∧ nj = bj) := by
    rcases hcase with ⟨h1, h2⟩ | ⟨h1, h2⟩ | ⟨h1, h2⟩ | ⟨h1, h2⟩ <;>
      rintro ⟨e1, e2⟩ <;> omega
  refine ⟨wf_swapCells ⟨hs, hperm⟩ hbi hbj hni hnj, ni, nj, hni, hnj, hcase,
    rfl, ?_, ?_, ?_⟩
  · rw [cell_swapCells hs hbi hbj hni hnj hni hnj, if_pos ⟨rfl, rfl⟩, hbz]
  · rw [cell_swapCells hs hbi hbj hni hnj hbi hbj,
      if_neg (by rintro ⟨e1, e2⟩; exact hdiff ⟨e1.symm, e2.symm⟩),
      if_pos ⟨rfl, rfl⟩]
  · intro a b ha hb2 hnb hnn
    rw [cell_swapCells hs hbi hbj hni hnj ha hb2, if_neg hnn, if_neg hnb]

/-- C10 witness: the theorem applied to a concrete 2×2 state. -/
theorem c10_witness :
    Wf 2 [[1, 2], [0, 3]]
      ∧ ∃ bi bj moves, getBlankPosition 2 [[1, 2], [0, 3]] = .ok (bi, bj)
        ∧ bi < 2 ∧ bj < 2 ∧ cell [[1, 2], [0, 3]] bi bj = 0
        ∧ getPossibleMoves 2 [[1, 2], [0, 3]] = .ok moves
        ∧ ∀ m ∈ moves, Wf 2 m
            ∧ ∃ ni nj, ni < 2 ∧ nj < 2
              ∧ ((ni + 1 = bi ∧ nj = bj) ∨ (ni = bi + 1 ∧ nj = bj)
                ∨ (ni = bi ∧ nj + 1 = bj) ∨ (ni = bi ∧ nj = bj + 1))
              ∧ m = swapCells [[1, 2], [0, 3]] bi bj ni nj
              ∧ cell m ni nj = 0 ∧ cell m bi bj = cell [[1, 2], [0, 3]] ni nj
              ∧ ∀ a b, a < 2 → b < 2 → ¬(a = bi ∧ b = bj)
                  → ¬(a = ni ∧ b = nj) → cell m a b = cell [[1, 2], [0, 3]] a b :=
  ⟨by decide, c10_theorem (by decide) (by decide)⟩

/-! ## Replaying actions (claim C3) -/

theorem replay_nil (size : Nat) (g : Grid) : replay size g [] = some g := rfl

theorem replay_append (size : Nat) (g : Grid) (p : List String) (a : String) :
    replay size g (p ++ [a])
      = (replay size g p).bind (fun s => replayStep size s a) := by
  unfold replay
  rw [List.foldlM_append]
  rcases List.foldlM (replayStep size) g p with _ | s
  · rfl
  · show List.foldlM (replayStep size) s [a] = replayStep size s a
    show (replayStep size s a).bind (List.foldlM (replayStep size) · []) = _
    rcases replayStep size s a with _ | t <;> rfl

/-- The blank of a legal move sits at the swapped-in cell. -/
theorem blank_of_move {size : Nat} {g : Grid} {bi bj ni nj : Nat}
    (hwf : Wf size g) (hpos : 1 ≤ size)
    (hbi : bi < size) (hbj : bj < size) (hni : ni < size) (hnj : nj < size)
    (hbz : cell g bi bj = 0) (hdiff : ¬(ni = bi ∧ nj = bj)) :
    getBlankPosition size (swapCells g bi bj ni nj) = .ok (ni, nj) := by
  have hwfm : Wf size (swapCells g bi bj ni nj) :=
    wf_swapCells hwf hbi hbj hni hnj
  apply getBlankPosition_eq hwfm.1 (wf_one_blank hwfm hpos) hni hnj
  rw [cell_swapCells hwf.1 hbi hbj hni hnj hni hnj, if_pos ⟨rfl, rfl⟩, hbz]

/-- The crux of path replay: applying the label `getAction` assigns to a legal
move reproduces exactly that move. -/
theorem replayStep_getAction {size : Nat} {g m : Grid}
    (hwf : Wf size g) (hpos : 1 ≤ size) {ms : List Grid}
    (hms : getPossibleMoves size g = .ok ms) (hm : m ∈ ms) :
    replayStep size g (getAction size g m) = some m ∧ Wf size m := by
  have hone : g.flatten.count 0 = 1 := wf_one_blank hwf hpos
  obtain ⟨bi, bj, hbi, hbj, hbz⟩ :=
    exists_blank_cell hwf.1 (by rw [← List.count_pos_iff]; omega)
  have hb : getBlankPosition size g = .ok (bi, bj) :=
    getBlankPosition_eq hwf.1 hone hbi hbj hbz
  obtain ⟨ni, nj, hni, hnj, hcase, rfl⟩ := (mem_moves_iff hbi hbj hb hms).mp hm
  have hdiff : ¬(ni = bi ∧ nj = bj) := by
    rcases hcase with ⟨h1, h2⟩ | ⟨h1, h2⟩ | ⟨h1, h2⟩ | ⟨h1, h2⟩ <;>
      rintro ⟨e1, e2⟩ <;> omega
  have hbm : getBlankPosition size (swapCells g bi bj ni nj) = .ok (ni, nj) :=
    blank_of_move hwf hpos hbi hbj hni hnj hbz hdiff
  have hwfm : Wf size (swapCells g bi bj ni nj) :=
    wf_swapCells hwf hbi hbj hni hnj
  refine ⟨?_, hwfm⟩
  have hup : ∀ r c : Nat, getNewPosition r c "Up" = ((r : Int) - 1, (c : Int)) := by
    intro r c; unfold getNewPosition; rw [if_pos rfl]
  have hdown : ∀ r c : Nat, getNewPosition r c "Down" = ((r : Int) + 1, (c : Int)) := by
    intro r c; unfold getNewPosition; rw [if_neg (by decide), if_pos rfl]
  have hleft : ∀ r c : Nat, getNewPosition r c "Left" = ((r : Int), (c : Int) - 1) := by
    intro r c; unfold getNewPosition
    rw [if_neg (by decide), if_neg (by decide), if_pos rfl]
  have hright : ∀ r c : Nat, getNewPosition r c "Right" = ((r : Int), (c : Int) + 1) := by
    intro r c; unfold getNewPosition
    rw [if_neg (by decide), if_neg (by decide), if_neg (by decide), if_pos rfl]
  unfold getAction replayStep
  rw [hb, hbm]
  dsimp only
  rcases hcase with ⟨h1, h2⟩ | ⟨h1, h2⟩ | ⟨h1, h2⟩ | ⟨h1, h2⟩
  · rw [if_pos (by omega : ni < bi), hup]
    dsimp only
    rw [if_pos ⟨by omega, by omega, by omega, by omega⟩]
    congr 2 <;> omega
  · rw [if_neg (by omega : ¬ ni < bi), if_pos (by omega : ni > bi), hdown]
    dsimp only
    rw [if_pos ⟨by omega, by omega, by omega, by omega⟩]
    congr 2 <;> omega
  · rw [if_neg (by omega : ¬ ni < bi), if_neg (by omega : ¬ ni > bi),
      if_pos (by omega : nj < bj), hleft]
    dsimp only
    rw [if_pos ⟨by omega, by omega, by omega, by omega⟩]
    congr 2 <;> omega
  · rw [if_neg (by omega : ¬ ni < bi), if_neg (by omega : ¬ ni > bi),
      if_neg (by omega : ¬ nj < bj), if_pos (by omega : nj > bj), hright]
    dsimp only
    rw [if_pos ⟨by omega, by omega, by omega, by omega⟩]
    congr 2 <;> omega

theorem nodeInv_root {size : Nat} {g0 : Grid} (hwf : Wf size g0) :
    NodeInv size g0 (PNode.root g0) :=
  ⟨hwf, rfl, rfl⟩

/-- Children generated by one expansion inherit the lineage invariant. -/
theorem nodeInv_expandChildren {size : Nat} {g0 : Grid} {node : PNode}
    {moves : List Grid} {visited : List Grid} (hpos : 1 ≤ size)
    (hnd : NodeInv size g0 node)
    (hmv : getPossibleMoves size node.state = .ok moves) :
    ∀ child ∈ expandChildren size node moves visited, NodeInv size g0 child := by
  intro child hchild
  unfold expandChildren at hchild
  rw [List.mem_map] at hchild
  obtain ⟨m, hmem, rfl⟩ := hchild
  have hmm : m ∈ moves := (List.mem_filter.mp hmem).1
  obtain ⟨hstep, hwfm⟩ := replayStep_getAction hnd.1 hpos hmv hmm
  refine ⟨hwfm, ?_, ?_⟩
  · show replay size g0 (node.reconstructPath ++ [getAction size node.state m])
      = some m
    rw [replay_append, hnd.2.1]
    exact hstep
  · show node.depth + 1
      = (node.reconstructPath ++ [getAction size node.state m]).length
    rw [List.length_append, hnd.2.2]
    rfl

theorem grid_eq_of_cells {size : Nat} {g1 g2 : Grid}
    (hs1 : Shape size g1) (hs2 : Shape size g2)
    (h : ∀ i j, i < size → j < size → cell g1 i j = cell g2 i j) : g1 = g2 := by
  apply List.ext_getElem (by rw [hs1.1, hs2.1])
  intro i hi1 hi2
  have hi : i < size := by rw [← hs1.1]; exact hi1
  apply List.ext_getElem
  · rw [hs1.2 _ (List.getElem_mem hi1), hs2.2 _ (List.getElem_mem hi2)]
  · intro j hj1 hj2
    have hj : j < size := by
      rw [← hs1.2 _ (List.getElem_mem hi1)]; exact hj1
    have hc := h i j hi hj
    unfold cell at hc
    rw [getD_of_lt _ _ _ (by omega : i < g1.length),
      getD_of_lt _ _ _ (by omega : i < g2.length),
      getD_of_lt _ _ _ hj1, getD_of_lt _ _ _ hj2] at hc
    exact hc

/-- On well-formed states the element-wise goal test coincides with equality
with the goal grid. -/
theorem isGoalState_iff {size : Nat} {g : Grid} (hwf : Wf size g) :
    isGoalState size g = true ↔ g = generateGoalState size := by
  unfold isGoalState
  simp only [List.all_eq_true, List.mem_range, beq_iff_eq]
  constructor
  · intro h
    exact grid_eq_of_cells hwf.1 (shape_generateGoalState size)
      (fun i j hi hj => h i hi j hj)
  · intro h i hi j hj
    rw [h]

/-- The one-step stable insertion produces a permutation. -/
theorem insertByF_perm (m : FMap) (nd : PNode) :
    ∀ l : List PNode, (insertByF m nd l).Perm (nd :: l) := by
  intro l
  induction l with
  | nil => exact List.Perm.refl _
  | cons x xs ih =>
    unfold insertByF
    by_cases hc : fLookup m x.state ≤ fLookup m nd.state
    · rw [if_pos hc]
      exact (ih.cons x).trans (List.Perm.swap nd x xs)
    · rw [if_neg hc]

/-- The frontier sort is a permutation of the frontier. -/
theorem sortByF_perm (m : FMap) (l : List PNode) : (sortByF m l).Perm l := by
  suffices h : ∀ (l : List PNode) (acc : List PNode),
      (l.foldl (fun acc nd => insertByF m nd acc) acc).Perm (acc ++ l) by
    simpa using h l []
  intro l
  induction l with
  | nil => intro acc; simp
  | cons x xs ih =>
    intro acc
    show ((xs.foldl (fun acc nd => insertByF m nd acc) (insertByF m x acc))).Perm _
    exact ((ih _).trans ((insertByF_perm m x acc).append_right xs)).trans
      List.perm_middle.symm

/-- Whatever solution the BFS loop returns, its path replays from the initial
state to the goal grid. -/
theorem bfsLoop_sound {size : Nat} {g0 : Grid} (hpos : 1 ≤ size) :
    ∀ (fuel : Nat) (c : SConfig) (sol : Solution),
      (∀ nd ∈ c.queue, NodeInv size g0 nd) →
      bfsLoop size fuel c = some (.ok sol) →
      replay size g0 sol.path = some (generateGoalState size) := by
  intro fuel
  induction fuel with
  | zero =>
    intro c sol _ h
    simp [bfsLoop] at h
  | succ fuel ih =>
    intro c sol hinv hrun
    simp only [bfsLoop] at hrun
    unfold bfsStep at hrun
    rcases hq : c.queue with _ | ⟨node, rest⟩ <;> rw [hq] at hrun
    · simp at hrun
    · dsimp only at hrun
      have hnd : NodeInv size g0 node :=
        hinv node (by rw [hq]; exact List.mem_cons_self _ _)
      by_cases hgoal : isGoalState size node.state
      · rw [if_pos hgoal] at hrun
        simp only [Option.some.injEq, Except.ok.injEq] at hrun
        have hsol : sol.path = node.reconstructPath := by rw [← hrun]
        rw [hsol, hnd.2.1]
        rw [(isGoalState_iff hnd.1).mp hgoal]
      · rw [if_neg hgoal] at hrun
        by_cases hvis : c.visited.contains node.state
        · rw [if_pos hvis] at hrun
          exact ih _ sol (fun nd hnd2 =>
            hinv nd (by rw [hq]; exact List.mem_cons_of_mem _ hnd2)) hrun
        · rw [if_neg hvis] at hrun
          rcases hmv : getPossibleMoves size node.state with e | moves <;>
            rw [hmv] at hrun
          · simp at hrun
          · dsimp only at hrun
            apply ih _ sol _ hrun
            intro nd hnd2
            rcases List.mem_append.mp hnd2 with hrest | hchild
            · exact hinv nd (by rw [hq]; exact List.mem_cons_of_mem _ hrest)
            · exact nodeInv_expandChildren hpos hnd hmv nd hchild

/-- Whatever solution the DFS loop returns, its path replays from the initial
state to the goal grid. -/
theorem dfsLoop_sound {size : Nat} {g0 : Grid} (hpos : 1 ≤ size) :
    ∀ (fuel : Nat) (c : SConfig) (sol : Solution),
      (∀ nd ∈ c.queue, NodeInv size g0 nd) →
      dfsLoop size fuel c = some (.ok sol) →
      replay size g0 sol.path = some (generateGoalState size) := by
  intro fuel
  induction fuel with
  | zero =>
    intro c sol _ h
    simp [dfsLoop] at h
  | succ fuel ih =>
    intro c sol hinv hrun
    simp only [dfsLoop] at hrun
    unfold dfsStep at hrun
    rcases hq : c.queue with _ | ⟨node, rest⟩ <;> rw [hq] at hrun
    · simp at hrun
    · dsimp only at hrun
      have hnd : NodeInv size g0 node :=
        hinv node (by rw [hq]; exact List.mem_cons_self _ _)
      by_cases hgoal : isGoalState size node.state
      · rw [if_pos hgoal] at hrun
        simp only [Option.some.injEq, Except.ok.injEq] at hrun
        have hsol : sol.path = node.reconstructPath := by rw [← hrun]
        rw [hsol, hnd.2.1]
        rw [(isGoalState_iff hnd.1).mp hgoal]
      · rw [if_neg hgoal] at hrun
        by_cases hvis : c.visited.contains node.state
        · rw [if_pos hvis] at hrun
          exact ih _ sol (fun nd hnd2 =>
            hinv nd (by rw [hq]; exact List.mem_cons_of_mem _ hnd2)) hrun
        · rw [if_neg hvis] at hrun
          rcases hmv : getPossibleMoves size node.state with e | moves <;>
            rw [hmv] at hrun
          · simp at hrun
          · dsimp only at hrun
            apply ih _ sol _ hrun
            intro nd hnd2
            rcases List.mem_append.mp hnd2 with hchild | hrest
            · exact nodeInv_expandChildren hpos hnd hmv nd
                (List.mem_reverse.mp hchild)
            · exact hinv nd (by rw [hq]; exact List.mem_cons_of_mem _ hrest)

/-- Whatever solution the A* loop returns, its path replays from the initial
state to the goal grid. -/
theorem astarLoop_sound {size : Nat} {g0 : Grid} {h : Grid → Nat}
    (hpos : 1 ≤ size) :
    ∀ (fuel : Nat) (c : AConfig) (sol : Solution),
      (∀ nd ∈ c.openSet, NodeInv size g0 nd) →
      astarLoop size h fuel c = some (.ok sol) →
      replay size g0 sol.path = some (generateGoalState size) := by
  intro fuel
  induction fuel with
  | zero =>
    intro c sol _ hr
    simp [astarLoop] at hr
  | succ fuel ih =>
    intro c sol hinv hrun
    simp only [astarLoop] at hrun
    unfold astarStep at hrun
    rcases hq : sortByF c.fmap c.openSet with _ | ⟨node, rest⟩ <;>
      rw [hq] at hrun
    · simp at hrun
    · dsimp only at hrun
      have hsortmem : ∀ nd ∈ sortByF c.fmap c.openSet, NodeInv size g0 nd :=
        fun nd hnd2 => hinv nd ((sortByF_perm _ _).mem_iff.mp hnd2)
      have hnd : NodeInv size g0 node :=
        hsortmem node (by rw [hq]; exact List.mem_cons_self _ _)
      by_cases hgoal : isGoalState size node.state
      · rw [if_pos hgoal] at hrun
        simp only [Option.some.injEq, Except.ok.injEq] at hrun
        have hsol : sol.path = node.reconstructPath := by rw [← hrun]
        rw [hsol, hnd.2.1]
        rw [(isGoalState_iff hnd.1).mp hgoal]
      · rw [if_neg hgoal] at hrun
        by_cases hvis : c.visited.contains node.state
        · rw [if_pos hvis] at hrun
          exact ih _ sol (fun nd hnd2 =>
            hsortmem nd (by rw [hq]; exact List.mem_cons_of_mem _ hnd2)) hrun
        · rw [if_neg hvis] at hrun
          rcases hmv : getPossibleMoves size node.state with e | moves <;>
            rw [hmv] at hrun
          · simp at hrun
          · dsimp only at hrun
            apply ih _ sol _ hrun
            intro nd hnd2
            rcases List.mem_append.mp hnd2 with hrest | hchild
            · exact hsortmem nd (by rw [hq]; exact List.mem_cons_of_mem _ hrest)
            · exact nodeInv_expandChildren hpos hnd hmv nd hchild

/-- The goal grid passes its own goal test. -/
theorem isGoalState_goal (size : Nat) :
    isGoalState size (generateGoalState size) = true := by
  unfold isGoalState
  simp [List.all_eq_true]

/-- C3: replaying the path of any solution returned by `solve` — swapping the
blank with its neighbour in the named direction at each step, as the page's
step player does — reproduces exactly the goal grid; and when the initial
state is already the goal, the returned path is empty. -/
theorem c3_theorem {size : Nat} {g : Grid} {alg : String} {h : Grid → Nat}
    {fuel : Nat} {sol : Solution} (hwf : Wf size g) (hpos : 1 ≤ size)
    (hrun : solve size g alg h fuel = some (.ok sol)) :
    replay size g sol.path = some (generateGoalState size)
      ∧ (g = generateGoalState size → sol.path = []) := by
  have hroot : ∀ nd ∈ [PNode.root g], NodeInv size g nd := by
    intro nd hnd
    simp only [List.mem_singleton] at hnd
    subst hnd
    exact nodeInv_root hwf
  constructor
  · unfold solve at hrun
    by_cases h1 : alg = "bfs"
    · rw [if_pos h1] at hrun
      exact bfsLoop_sound hpos fuel _ sol hroot hrun
    · rw [if_neg h1] at hrun
      by_cases h2 : alg = "dfs"
      · rw [if_pos h2] at hrun
        exact dfsLoop_sound hpos fuel _ sol hroot hrun
      · rw [if_neg h2] at hrun
        by_cases h3 : alg = "astar"
        · rw [if_pos h3] at hrun
          exact astarLoop_sound hpos fuel (aconf0 g h) sol hroot hrun
        · rw [if_neg h3] at hrun
          simp at hrun
  · intro hg
    subst hg
    unfold solve at hrun
    by_cases h1 : alg = "bfs"
    · rw [if_pos h1] at hrun
      cases fuel with
      | zero => simp [bfsLoop] at hrun
      | succ fuel =>
        simp only [bfsLoop] at hrun
        unfold bfsStep at hrun
        dsimp only [PNode.state] at hrun
        rw [isGoalState_goal size] at hrun
        simp only [if_true, Option.some.injEq, Except.ok.injEq] at hrun
        rw [← hrun]
        rfl
    · rw [if_neg h1] at hrun
      by_cases h2 : alg = "dfs"
      · rw [if_pos h2] at hrun
        cases fuel with
        | zero => simp [dfsLoop] at hrun
        | succ fuel =>
          simp only [dfsLoop] at hrun
          unfold dfsStep at hrun
          dsimp only [PNode.state] at hrun
          rw [isGoalState_goal size] at hrun
          simp only [if_true, Option.some.injEq, Except.ok.injEq] at hrun
          rw [← hrun]
          rfl
      · rw [if_neg h2] at hrun
        by_cases h3 : alg = "astar"
        · rw [if_pos h3] at hrun
          cases fuel with
          | zero => simp [astarLoop] at hrun
          | succ fuel =>
            simp only [astarLoop] at hrun
            unfold astarStep at hrun
            have hsort : sortByF (aconf0 (generateGoalState size) h).fmap
                (aconf0 (generateGoalState size) h).openSet
                = [PNode.root (generateGoalState size)] := rfl
            rw [hsort] at hrun
            dsimp only [PNode.state] at hrun
            rw [isGoalState_goal size] at hrun
            simp only [if_true, Option.some.injEq, Except.ok.injEq] at hrun
            rw [← hrun]
            rfl
        · rw [if_neg h3] at hrun
          simp at hrun

/-- C3 witness: a concrete BFS run one move from the goal. -/
theorem c3_witness :
    replay 2 [[1, 2], [0, 3]] (["Right"] : List String)
        = some (generateGoalState 2)
      ∧ ([[1, 2], [0, 3]] = generateGoalState 2 → (["Right"] : List String) = []) := by
  have h := @c3_theorem 2 [[1, 2], [0, 3]] "bfs"
    (fun _ => 0) 3 ⟨["Right"], 3, 1⟩
    (by decide) (by decide) (by decide)
  exact h

/-! ## The A* frontier order (claim C5) -/

/-- Stable insertion keeps the list sorted by recorded fScore. -/
theorem insertByF_sorted (m : FMap) (nd : PNode) :
    ∀ l : List PNode,
      List.Sorted (fun a b => fLookup m a.state ≤ fLookup m b.state) l →
      List.Sorted (fun a b => fLookup m a.state ≤ fLookup m b.state)
        (insertByF m nd l) := by
  intro l
  induction l with
  | nil =>
    intro _
    exact List.sorted_singleton _
  | cons x xs ih =>
    intro hs
    rw [List.sorted_cons] at hs
    unfold insertByF
    by_cases hc : fLookup m x.state ≤ fLookup m nd.state
    · rw [if_pos hc]
      rw [List.sorted_cons]
      refine ⟨?_, ih hs.2⟩
      intro b hb
      have hb2 := (insertByF_perm m nd xs).mem_iff.mp hb
      rcases List.mem_cons.mp hb2 with rfl | hbxs
      · exact hc
      · exact hs.1 b hbxs
    · rw [if_neg hc]
      rw [List.sorted_cons]
      refine ⟨?_, List.sorted_cons.mpr hs⟩
      intro b hb
      rcases List.mem_cons.mp hb with rfl | hbxs
      · omega
      · have := hs.1 b hbxs
        omega

/-- The frontier sort is sorted ascending by recorded fScore. -/
theorem sortByF_sorted (m : FMap) (l : List PNode) :
    List.Sorted (fun a b => fLookup m a.state ≤ fLookup m b.state)
      (sortByF m l) := by
  suffices h : ∀ (l acc : List PNode),
      List.Sorted (fun a b => fLookup m a.state ≤ fLookup m b.state) acc →
      List.Sorted (fun a b => fLookup m a.state ≤ fLookup m b.state)
        (l.foldl (fun acc nd => insertByF m nd acc) acc) from
    h l [] (List.sorted_nil)
  intro l
  induction l with
  | nil => intro acc hacc; exact hacc
  | cons x xs ih =>
    intro acc hacc
    exact ih _ (insertByF_sorted m x acc hacc)

/-- C5 amended: the node the A* loop removes (the head of the sorted open set)
carries a minimal RECORDED fScore — the map value last written for its state —
among the whole open set. Ties are resolved by the stable sort's preservation
of the current array order, not by preferring the larger gScore. -/
theorem c5_theorem {h : Grid → Nat} {size : Nat} {c : AConfig}
    {node : PNode} {rest : List PNode}
    (hq : sortByF c.fmap c.openSet = node :: rest) :
    (∀ x ∈ c.openSet, fLookup c.fmap node.state ≤ fLookup c.fmap x.state)
      ∧ (isGoalState size node.state = true →
          astarStep size h c
            = .inl (.ok ⟨node.reconstructPath, c.nodesExplored + 1,
                max c.maxDepth node.depth⟩)) := by
  constructor
  · intro x hx
    have hxs : x ∈ sortByF c.fmap c.openSet :=
      (sortByF_perm c.fmap c.openSet).symm.mem_iff.mp hx
    rw [hq] at hxs
    rcases List.mem_cons.mp hxs with rfl | hxr
    · exact Nat.le_refl _
    · have hsorted := sortByF_sorted c.fmap c.openSet
      rw [hq, List.sorted_cons] at hsorted
      exact hsorted.1 x hxr
  · intro hgoal
    unfold astarStep
    rw [hq]
    dsimp only
    rw [hgoal]
    rfl

/-- C5 witness: the amended statement on a one-node frontier. -/
theorem c5_witness :
    (∀ x ∈ (aconf0 [[1, 2], [0, 3]] (fun _ => 0)).openSet,
        fLookup (aconf0 [[1, 2], [0, 3]] (fun _ => 0)).fmap
            (PNode.root [[1, 2], [0, 3]]).state
          ≤ fLookup (aconf0 [[1, 2], [0, 3]] (fun _ => 0)).fmap x.state)
      ∧ (isGoalState 2 (PNode.root [[1, 2], [0, 3]]).state = true →
          astarStep 2 (fun _ => 0) (aconf0 [[1, 2], [0, 3]] (fun _ => 0))
            = .inl (.ok ⟨(PNode.root [[1, 2], [0, 3]]).reconstructPath,
                (aconf0 [[1, 2], [0, 3]] (fun _ => 0)).nodesExplored + 1,
                max (aconf0 [[1, 2], [0, 3]] (fun _ => 0)).maxDepth
                  (PNode.root [[1, 2], [0, 3]]).depth⟩)) :=
  @c5_theorem (fun _ => 0) 2 (aconf0 [[1, 2], [0, 3]] (fun _ => 0))
    (PNode.root [[1, 2], [0, 3]]) [] (by rfl)

/-- C5 counterexample: in the A* run with the hamming heuristic from
`[[1,2,3],[4,8,5],[0,7,6]]`, the fourth pop removes a node of depth 2 and
fScore 5 while a node of depth 3 with the same fScore 5 sits in the frontier —
the tie is NOT broken toward the larger gScore. The same run then completes
normally. -/
theorem c5_counterexample :
    c5probe (confOf (astarIterate 3 (hammingDistance 3) 3 c5start))
        = ((2, 5), [(3, 5), (1, 7), (3, 7), (3, 7)])
      ∧ astarLoop 3 (hammingDistance 3) 7 c5start
        = some (.ok ⟨["Right", "Up", "Right", "Down"], 6, 4⟩) := by
  refine ⟨by decide, by decide⟩

/-! ## The A* fScore bookkeeping (claim C4) -/

theorem fLookup_fSet_self (m : FMap) (g : Grid) (v : Nat) :
    fLookup (fSet m g v) g = v := by
  unfold fLookup fSet
  rw [List.find?_cons_of_pos _ (by simp)]
  rfl

theorem fLookup_fSet_ne (m : FMap) {g g2 : Grid} (v : Nat) (h : g2 ≠ g) :
    fLookup (fSet m g v) g2 = fLookup m g2 := by
  unfold fLookup fSet
  rw [List.find?_cons_of_neg _ (by simpa using Ne.symm h)]

theorem fLookup_fScoreWrites_not_mem {h : Grid → Nat} {node : PNode} {x : Grid} :
    ∀ (l : List Grid) (m : FMap), x ∉ l →
      fLookup (fScoreWrites h node l m) x = fLookup m x := by
  intro l
  induction l with
  | nil => intro m _; rfl
  | cons y ys ih =>
    intro m hx
    show fLookup (fScoreWrites h node ys (fSet m y (node.depth + 1 + h y))) x = _
    rw [ih _ (fun hm => hx (List.mem_cons_of_mem _ hm)),
      fLookup_fSet_ne _ _ (fun he => hx (by rw [he]; exact List.mem_cons_self _ _))]

/-- Line 341: every generated unvisited neighbour gets its tentative fScore
written to the map, whatever was recorded for it before. -/
theorem fLookup_fScoreWrites_mem {h : Grid → Nat} {node : PNode} {x : Grid} :
    ∀ (l : List Grid) (m : FMap), x ∈ l →
      fLookup (fScoreWrites h node l m) x = node.depth + 1 + h x := by
  intro l
  induction l with
  | nil => intro m hx; simp at hx
  | cons y ys ih =>
    intro m hx
    show fLookup (fScoreWrites h node ys (fSet m y (node.depth + 1 + h y))) x = _
    by_cases hmem : x ∈ ys
    · exact ih _ hmem
    · have hxy : x = y := by
        rcases List.mem_cons.mp hx with he | hm
        · exact he
        · exact absurd hm hmem
      rw [fLookup_fScoreWrites_not_mem ys _ hmem, hxy, fLookup_fSet_self]

/-- C4 amended: when the popped node is not the goal and not yet visited, the
expansion step unconditionally appends a node for every unvisited neighbour and
unconditionally overwrites the neighbour's recorded fScore with the new
tentative value — no comparison with the previous record and no in-place
replacement of existing frontier entries happens. -/
theorem c4_theorem {size : Nat} {h : Grid → Nat} {c : AConfig}
    {node : PNode} {rest : List PNode} {moves : List Grid}
    {visited2 newMoves : List Grid}
    (hq : sortByF c.fmap c.openSet = node :: rest)
    (hng : isGoalState size node.state = false)
    (hnv : c.visited.contains node.state = false)
    (hmv : getPossibleMoves size node.state = .ok moves)
    (hvis : visited2 = node.state :: c.visited)
    (hnew : newMoves = moves.filter fun m => !visited2.contains m) :
    astarStep size h c
        = .inr ⟨rest ++ expandChildren size node moves visited2, visited2,
            fScoreWrites h node newMoves c.fmap,
            c.nodesExplored + 1, max c.maxDepth node.depth⟩
      ∧ ∀ m ∈ newMoves,
          fLookup (fScoreWrites h node newMoves c.fmap) m
            = node.depth + 1 + h m := by
  subst hvis
  subst hnew
  constructor
  · unfold astarStep
    rw [hq]
    dsimp only
    rw [hng, hnv, hmv]
    rfl
  · intro m hm
    exact fLookup_fScoreWrites_mem _ _ hm

/-- C4 witness: the amended statement at a concrete expansion. -/
theorem c4_witness :
    astarStep 2 (fun _ => 0) (aconf0 [[1, 2], [0, 3]] (fun _ => 0))
        = .inr ⟨[] ++ expandChildren 2 (PNode.root [[1, 2], [0, 3]])
              [[[0, 2], [1, 3]], [[1, 2], [3, 0]]]
              ([[1, 2], [0, 3]] :: []),
            [[1, 2], [0, 3]] :: [],
            fScoreWrites (fun _ => 0) (PNode.root [[1, 2], [0, 3]])
              ([[[0, 2], [1, 3]], [[1, 2], [3, 0]]].filter
                fun m => !([[1, 2], [0, 3]] :: []).contains m)
              (aconf0 [[1, 2], [0, 3]] (fun _ => 0)).fmap,
            (aconf0 [[1, 2], [0, 3]] (fun _ => 0)).nodesExplored + 1,
            max (aconf0 [[1, 2], [0, 3]] (fun _ => 0)).maxDepth
              (PNode.root [[1, 2], [0, 3]]).depth⟩
      ∧ ∀ m ∈ ([[[0, 2], [1, 3]], [[1, 2], [3, 0]]].filter
            fun m => !([[1, 2], [0, 3]] :: []).contains m),
          fLookup (fScoreWrites (fun _ => 0) (PNode.root [[1, 2], [0, 3]])
              ([[[0, 2], [1, 3]], [[1, 2], [3, 0]]].filter
                fun m => !([[1, 2], [0, 3]] :: []).contains m)
              (aconf0 [[1, 2], [0, 3]] (fun _ => 0)).fmap) m
            = (PNode.root [[1, 2], [0, 3]]).depth + 1 + (fun _ => 0) m :=
  c4_theorem (by rfl) (by decide) (by decide) (by decide) (by rfl) (by rfl)

/-- C4 counterexample: in the A* run with the linearConflicts heuristic from
`[[1,0,5],[4,3,2],[7,8,6]]`, at the 65th iteration the expanded node (depth 6)
regenerates the unvisited state `c4dup`, which is already present once in the
frontier with recorded fScore 7; the new tentative fScore 9 is NOT strictly
smaller, yet after the step the recorded fScore has been overwritten to 9 and
the frontier holds two entries for the state — the existing entry and its
recorded score are not left untouched. -/
theorem c4_counterexample :
    c4probe (confOf (astarIterate 3 (linearConflicts 3) 64 c4start))
        = (6, 1, false, true, 7, 9)
      ∧ c4post (confOf (astarIterate 3 (linearConflicts 3) 65 c4start)) = (9, 2)
      ∧ ¬ (9 : Nat) < 7 := by
  refine ⟨by decide, by decide, by decide⟩

/-! ## Reachability and the true minimum move count (claim C2) -/

theorem ReachIn.snoc {size k : Nat} {g g2 m : Grid}
    (hr : ReachIn size k g g2) (hm : m ∈ movesOf size g2) :
    ReachIn size (k + 1) g m := by
  induction hr with
  | refl g => exact ReachIn.step hm (ReachIn.refl m)
  | step h1 _ ih => exact ReachIn.step h1 (ih hm)

theorem ReachIn.concat {size a b : Nat} {g g2 g3 : Grid}
    (h1 : ReachIn size a g g2) (h2 : ReachIn size b g2 g3) :
    ReachIn size (a + b) g g3 := by
  revert h2
  induction h1 with
  | refl g => intro h2; simpa using h2
  | @step g g4 g5 k hm hr ih =>
    intro h2
    exact (by omega : k + b + 1 = k + 1 + b) ▸ ReachIn.step hm (ih h2)

/-- Extract an explicit chain from a reachability derivation. -/
theorem reachIn_chain {size k : Nat} {g g2 : Grid} (hr : ReachIn size k g g2) :
    ∃ p : List Grid, p.length = k + 1 ∧ p.getD 0 [] = g
      ∧ p.getD k [] = g2 ∧ IsChain size p := by
  induction hr with
  | refl g =>
    exact ⟨[g], rfl, rfl, rfl, fun j hj => absurd hj (by simp)⟩
  | @step g g4 g5 k h1 h2 ih =>
    obtain ⟨p, hlen, hhead, hlast, hchain⟩ := ih
    refine ⟨g :: p, by simp [hlen], rfl, ?_, ?_⟩
    · show p.getD k [] = g5
      exact hlast
    · intro j hj
      match j with
      | 0 =>
        show p.getD 0 [] ∈ movesOf size g
        rw [hhead]
        exact h1
      | j + 1 =>
        show p.getD (j + 1) [] ∈ movesOf size (p.getD j [])
        exact hchain j (by simpa using hj)

/-- Prefixes of a chain are reachable from its head. -/
theorem chain_prefix_reach {size : Nat} {p : List Grid} (hc : IsChain size p) :
    ∀ j, j + 1 ≤ p.length → ReachIn size j (p.getD 0 []) (p.getD j []) := by
  intro j
  induction j with
  | zero => intro _; exact ReachIn.refl _
  | succ j ih =>
    intro hj
    exact (ih (by omega)).snoc (hc j (by omega))

/-- Suffixes of a chain reach its last entry. -/
theorem chain_suffix_reach {size : Nat} {p : List Grid} (hc : IsChain size p) :
    ∀ j, j + 1 ≤ p.length →
      ReachIn size (p.length - 1 - j) (p.getD j []) (p.getD (p.length - 1) []) := by
  intro j hj
  have key : ∀ (n : Nat) (j : Nat), j + 1 ≤ p.length → p.length - 1 - j = n →
      ReachIn size n (p.getD j []) (p.getD (p.length - 1) []) := by
    intro n
    induction n with
    | zero =>
      intro j hj hn
      have : j = p.length - 1 := by omega
      rw [this]
      exact ReachIn.refl _
    | succ n ih =>
      intro j hj hn
      have hstep := hc j (by omega)
      have := ih (j + 1) (by omega) (by omega)
      exact ReachIn.step hstep this

  exact key _ j hj rfl

theorem nat_exists_min (P : Nat → Prop) :
    ∀ k, P k → ∃ d, P d ∧ ∀ j, P j → d ≤ j := by
  intro k
  induction k using Nat.strong_induction_on with
  | _ k ih =>
    intro hk
    by_cases h : ∃ j, j < k ∧ P j
    · obtain ⟨j, hj, hpj⟩ := h
      exact ih j hj hpj
    · exact ⟨k, hk, fun j hpj => by by_contra hlt; exact h ⟨j, by omega, hpj⟩⟩

theorem exists_goodChain {size d : Nat} {g0 goal : Grid}
    (hmin : IsMinMoves size g0 goal d) : ∃ p, GoodChain size d g0 goal p := by
  obtain ⟨p, h1, h2, h3, h4⟩ := reachIn_chain hmin.1
  exact ⟨p, h1, h2, h3, h4⟩

/-- Entries of a shortest chain are pairwise distinct (a repeat could be cut
out, contradicting minimality). -/
theorem goodChain_distinct {size d : Nat} {g0 goal : Grid} {p : List Grid}
    (hmin : IsMinMoves size g0 goal d) (hp : GoodChain size d g0 goal p) :
    ∀ i i', i < i' → i' ≤ d → p.getD i [] ≠ p.getD i' [] := by
  intro i i' hii hi'd heq
  have h1 := chain_prefix_reach hp.2.2.2 i (by rw [hp.1]; omega)
  have h2 := chain_suffix_reach hp.2.2.2 i' (by rw [hp.1]; omega)
  rw [hp.2.1] at h1
  rw [hp.1] at h2
  simp only [Nat.add_sub_cancel] at h2
  rw [hp.2.2.1] at h2
  rw [← heq] at h2
  have hcat := h1.concat h2
  have hd := hmin.2 _ hcat
  omega

/-- A grid of the right shape is determined by its flattening. -/
theorem flatten_inj_on_shape {size : Nat} {g1 g2 : Grid} (h1 : Shape size g1)
    (h2 : Shape size g2) (he : g1.flatten = g2.flatten) : g1 = g2 := by
  apply grid_eq_of_cells h1 h2
  intro i j hi hj
  rw [← flatten_getD g1 i j h1.2 (by rw [h1.1]; exact hi) hj,
    ← flatten_getD g2 i j h2.2 (by rw [h2.1]; exact hi) hj, he]

/-- A duplicate-free list of well-formed states is no longer than the number
of arrangements of the cell values. -/
theorem visited_length_le {size : Nat} {v : List Grid}
    (hwf : ∀ s ∈ v, Wf size s) (hnd : v.Nodup) : v.length ≤ permBound size := by
  have hmap : (v.map List.flatten).Nodup :=
    hnd.map_on fun x hx y hy he => flatten_inj_on_shape (hwf x hx).1 (hwf y hy).1 he
  have hsub : (v.map List.flatten) ⊆ (List.range (size * size)).permutations := by
    intro x hx
    rw [List.mem_map] at hx
    obtain ⟨s, hs, rfl⟩ := hx
    exact List.mem_permutations.mpr (hwf s hs).2
  calc v.length = (v.map List.flatten).length := (List.length_map _ _).symm
    _ ≤ permBound size := (List.subperm_of_subset hmap hsub).length_le

/-- A well-formed state has a blank, so `getBlankPosition` succeeds on it. -/
theorem getBlankPosition_exists_ok {size : Nat} {g : Grid} (hwf : Wf size g)
    (hpos : 1 ≤ size) : ∃ bi bj, bi < size ∧ bj < size
      ∧ getBlankPosition size g = .ok (bi, bj) := by
  have hmem : 0 ∈ g.flatten := by
    rw [hwf.2.mem_iff]
    exact List.mem_range.mpr (Nat.mul_pos hpos hpos)
  obtain ⟨i, j, hi, hj, hz⟩ := exists_blank_cell hwf.1 hmem
  exact ⟨i, j, hi, hj, getBlankPosition_eq hwf.1 (wf_one_blank hwf hpos) hi hj hz⟩

/-- `getPossibleMoves` succeeds on a well-formed state. -/
theorem getPossibleMoves_exists_ok {size : Nat} {g : Grid} (hwf : Wf size g)
    (hpos : 1 ≤ size) : ∃ ms, getPossibleMoves size g = .ok ms := by
  obtain ⟨bi, bj, _, _, hb⟩ := getBlankPosition_exists_ok hwf hpos
  exact ⟨_, getPossibleMoves_ok hb⟩

/-- At most one successor per direction. -/
theorem moves_length_le {size : Nat} {g : Grid} {bi bj : Nat} {ms : List Grid}
    (hb : getBlankPosition size g = .ok (bi, bj))
    (hms : getPossibleMoves size g = .ok ms) : ms.length ≤ 4 := by
  rw [getPossibleMoves_ok hb] at hms
  simp only [Except.ok.injEq] at hms
  rw [← hms]
  simpa using List.length_filterMap_le _ directions

theorem expandChildren_length_le {size : Nat} {node : PNode} {moves : List Grid}
    {visited : List Grid} :
    (expandChildren size node moves visited).length ≤ moves.length := by
  unfold expandChildren
  rw [List.length_map]
  exact List.length_filter_le _ _

theorem depth_of_mem_expandChildren {size : Nat} {node : PNode}
    {moves : List Grid} {visited : List Grid} :
    ∀ c ∈ expandChildren size node moves visited, c.depth = node.depth + 1 := by
  intro c hc
  unfold expandChildren at hc
  rw [List.mem_map] at hc
  obtain ⟨m, _, rfl⟩ := hc
  rfl

theorem state_of_mem_expandChildren {size : Nat} {node : PNode}
    {moves : List Grid} {visited : List Grid} :
    ∀ c ∈ expandChildren size node moves visited,
      c.state ∈ moves ∧ c.state ∉ visited := by
  intro c hc
  unfold expandChildren at hc
  rw [List.mem_map] at hc
  obtain ⟨m, hm, rfl⟩ := hc
  have h1 := List.mem_filter.mp hm
  refine ⟨h1.1, ?_⟩
  simpa using h1.2

/-- Children generated by one expansion inherit the strengthened invariant. -/
theorem nodeInvR_expandChildren {size : Nat} {g0 : Grid} {node : PNode}
    {moves : List Grid} {visited : List Grid} (hpos : 1 ≤ size)
    (hnd : NodeInvR size g0 node)
    (hmv : getPossibleMoves size node.state = .ok moves) :
    ∀ child ∈ expandChildren size node moves visited,
      NodeInvR size g0 child := by
  intro child hchild
  refine ⟨nodeInv_expandChildren hpos hnd.1 hmv child hchild, ?_⟩
  rw [depth_of_mem_expandChildren child hchild]
  refine hnd.2.snoc ?_
  unfold movesOf
  rw [hmv]
  exact (state_of_mem_expandChildren child hchild).1

theorem solve_bfs (size : Nat) (g : Grid) (h : Grid → Nat) (fuel : Nat) :
    solve size g "bfs" h fuel = bfsLoop size fuel ⟨[PNode.root g], [], 0, 0⟩ := by
  unfold solve
  rw [if_pos rfl]

/-- The invariant holds at the initial BFS configuration. -/
theorem bfsInv_init {size d : Nat} {g0 : Grid} {p : List Grid}
    (hwf : Wf size g0) (hgood : GoodChain size d g0 (generateGoalState size) p) :
    BfsInv size d g0 p ⟨[PNode.root g0], [], 0, 0⟩ := by
  refine ⟨?_, by simp, ?_, ?_, List.nodup_nil,
    0, Nat.zero_le d, ⟨PNode.root g0, by simp, hgood.2.1.symm, Nat.le_refl 0⟩, ?_⟩
  · intro nd hnd
    rw [List.mem_singleton] at hnd
    subst hnd
    exact ⟨nodeInv_root hwf, ReachIn.refl g0⟩
  · intro a ha b hb
    rw [List.mem_singleton] at ha hb
    subst ha; subst hb
    omega
  · intro s hs
    exact absurd hs (List.not_mem_nil s)
  · intro i _ _
    exact List.not_mem_nil _

/-- A terminating BFS step under the invariant cannot throw, and the returned
solution's path is no longer than the chain bound and replays a genuine move
sequence of its own length. -/
theorem bfsStep_inl {size d : Nat} {g0 : Grid} {p : List Grid} {c : SConfig}
    {r : Except String Solution} (hpos : 1 ≤ size)
    (hinv : BfsInv size d g0 p c) (hstep : bfsStep size c = .inl r) :
    ∃ sol, r = .ok sol ∧ sol.path.length ≤ d
      ∧ ReachIn size sol.path.length g0 (generateGoalState size) := by
  obtain ⟨hq, hsort, hnear, hvwf, hvnd, j, hjd, ⟨ndc, hndc, hcst, hcdep⟩, hcov⟩ :=
    hinv
  unfold bfsStep at hstep
  rcases hqe : c.queue with _ | ⟨node, rest⟩ <;>
    rw [hqe] at hstep hq hsort hnear hndc
  · exact absurd hndc (List.not_mem_nil ndc)
  · dsimp only at hstep
    have hnd : NodeInvR size g0 node := hq node (List.mem_cons_self _ _)
    by_cases hgoal : isGoalState size node.state
    · rw [if_pos hgoal] at hstep
      simp only [Sum.inl.injEq] at hstep
      refine ⟨_, hstep.symm, ?_, ?_⟩
      · show node.reconstructPath.length ≤ d
        have hlen : node.depth = node.reconstructPath.length := hnd.1.2.2
        have hfront : node.depth ≤ j := by
          rcases List.mem_cons.mp hndc with he | hmem
          · exact he ▸ hcdep
          · have h2 := (List.pairwise_cons.mp hsort).1 ndc hmem
            omega
        omega
      · show ReachIn size node.reconstructPath.length g0 (generateGoalState size)
        rw [← hnd.1.2.2]
        have hg : node.state = generateGoalState size :=
          (isGoalState_iff hnd.1.1).mp hgoal
        rw [← hg]
        exact hnd.2
    · rw [if_neg hgoal] at hstep
      by_cases hvis : c.visited.contains node.state
      · rw [if_pos hvis] at hstep
        exact Sum.noConfusion hstep
      · rw [if_neg hvis] at hstep
        rcases hmv : getPossibleMoves size node.state with e | moves <;>
          rw [hmv] at hstep
        · obtain ⟨ms, hms⟩ := getPossibleMoves_exists_ok hnd.1.1 hpos
          rw [hms] at hmv
          exact Except.noConfusion hmv
        · exact Sum.noConfusion hstep

/-- A non-terminating BFS step preserves the invariant and strictly decreases
the termination measure. -/
theorem bfsInv_step {size d : Nat} {g0 : Grid} {p : List Grid} {c c2 : SConfig}
    (hpos : 1 ≤ size)
    (hgood : GoodChain size d g0 (generateGoalState size) p)
    (hdist : ∀ i i', i < i' → i' ≤ d → p.getD i [] ≠ p.getD i' [])
    (hinv : BfsInv size d g0 p c) (hstep : bfsStep size c = .inr c2) :
    BfsInv size d g0 p c2 ∧ bfsMeasure size c2 < bfsMeasure size c := by
  obtain ⟨hq, hsort, hnear, hvwf, hvnd, j, hjd, ⟨ndc, hndc, hcst, hcdep⟩, hcov⟩ :=
    hinv
  unfold bfsStep at hstep
  rcases hqe : c.queue with _ | ⟨node, rest⟩ <;>
    rw [hqe] at hstep hq hsort hnear hndc
  · exact Sum.noConfusion hstep
  · dsimp only at hstep
    have hnd : NodeInvR size g0 node := hq node (List.mem_cons_self _ _)
    have hsrest : rest.Pairwise (fun a b => a.depth ≤ b.depth) :=
      (List.pairwise_cons.mp hsort).2
    have hsfront : ∀ b ∈ rest, node.depth ≤ b.depth :=
      (List.pairwise_cons.mp hsort).1
    have hfront : node.depth ≤ j := by
      rcases List.mem_cons.mp hndc with he | hmem
      · exact he ▸ hcdep
      · have h2 := hsfront ndc hmem
        omega
    by_cases hgoal : isGoalState size node.state
    · rw [if_pos hgoal] at hstep
      exact Sum.noConfusion hstep
    · rw [if_neg hgoal] at hstep
      by_cases hvis : c.visited.contains node.state
      · rw [if_pos hvis] at hstep
        injection hstep with hc2
        subst hc2
        have hnodemem : node.state ∈ c.visited := by simpa using hvis
        have hne : ndc ≠ node := by
          intro he
          apply hcov j (Nat.le_refl j) hjd
          rw [← hcst, he]
          exact hnodemem
        have hndcrest : ndc ∈ rest := by
          rcases List.mem_cons.mp hndc with he | hmem
          · exact absurd he hne
          · exact hmem
        refine ⟨⟨?_, hsrest, ?_, hvwf, hvnd,
          j, hjd, ⟨ndc, hndcrest, hcst, hcdep⟩, hcov⟩, ?_⟩
        · intro nd hmem
          exact hq nd (List.mem_cons_of_mem _ hmem)
        · intro a ha b hb
          exact hnear a (List.mem_cons_of_mem _ ha) b (List.mem_cons_of_mem _ hb)
        · unfold bfsMeasure
          rw [hqe]
          simp only [List.length_cons]
          omega
      · rw [if_neg hvis] at hstep
        rcases hmv : getPossibleMoves size node.state with e | moves <;>
          rw [hmv] at hstep
        · exact Sum.noConfusion hstep
        · dsimp only at hstep
          injection hstep with hc2
          subst hc2
          have hnotvis : node.state ∉ c.visited := by simpa using hvis
          have hmvof : movesOf size node.state = moves := by
            unfold movesOf
            rw [hmv]
          have hchd : ∀ x ∈ expandChildren size node moves (node.state :: c.visited),
              x.depth = node.depth + 1 := depth_of_mem_expandChildren
          have hgne : node.state ≠ generateGoalState size := by
            intro he
            exact hgoal ((isGoalState_iff hnd.1.1).mpr he)
          refine ⟨⟨?_, ?_, ?_, ?_, ?_, ?_⟩, ?_⟩
          · intro nd hmem
            rcases List.mem_append.mp hmem with hrest | hchild
            · exact hq nd (List.mem_cons_of_mem _ hrest)
            · exact nodeInvR_expandChildren hpos hnd hmv nd hchild
          · refine List.pairwise_append.mpr ⟨hsrest, ?_, ?_⟩
            · refine List.pairwise_of_forall_mem_list ?_
              intro x hx y hy
              rw [hchd x hx, hchd y hy]
            · intro a ha b hb
              have h1 := hnear a (List.mem_cons_of_mem _ ha) node
                (List.mem_cons_self _ _)
              rw [hchd b hb]
              omega
          · intro a ha b hb
            rcases List.mem_append.mp ha with ha1 | ha2 <;>
              rcases List.mem_append.mp hb with hb1 | hb2
            · exact hnear a (List.mem_cons_of_mem _ ha1) b
                (List.mem_cons_of_mem _ hb1)
            · have h1 := hnear a (List.mem_cons_of_mem _ ha1) node
                (List.mem_cons_self _ _)
              rw [hchd b hb2]
              omega
            · have h1 := hsfront b hb1
              rw [hchd a ha2]
              omega
            · rw [hchd a ha2, hchd b hb2]
              omega
          · intro s hs
            rcases List.mem_cons.mp hs with he | hmem
            · rw [he]
              exact hnd.1.1
            · exact hvwf s hmem
          · exact List.nodup_cons.mpr ⟨hnotvis, hvnd⟩
          · by_cases hcase : ∃ i0, j ≤ i0 ∧ i0 ≤ d ∧ node.state = p.getD i0 []
            · obtain ⟨i0, hji0, hi0d, hsi0⟩ := hcase
              have hi0lt : i0 < d := by
                rcases Nat.lt_or_ge i0 d with h | h
                · exact h
                · exfalso
                  apply hgne
                  rw [hsi0]
                  have : i0 = d := by omega
                  rw [this, hgood.2.2.1]
              have hmnext : p.getD (i0 + 1) [] ∈ moves := by
                have hch := hgood.2.2.2 i0 (by rw [hgood.1]; omega)
                rw [← hsi0, hmvof] at hch
                exact hch
              have hmnew : p.getD (i0 + 1) [] ∉ node.state :: c.visited := by
                intro hmem
                rcases List.mem_cons.mp hmem with he | hmem2
                · rw [hsi0] at he
                  exact hdist i0 (i0 + 1) (Nat.lt_succ_self i0) (by omega) he.symm
                · exact hcov (i0 + 1) (by omega) (by omega) hmem2
              refine ⟨i0 + 1, by omega,
                ⟨PNode.child node (p.getD (i0 + 1) [])
                  (getAction size node.state (p.getD (i0 + 1) [])), ?_, rfl, ?_⟩, ?_⟩
              · apply List.mem_append.mpr
                refine Or.inr ?_
                unfold expandChildren
                apply List.mem_map_of_mem
                exact List.mem_filter.mpr ⟨hmnext, by simpa using hmnew⟩
              · show node.depth + 1 ≤ i0 + 1
                omega
              · intro i hi1 hi2
                intro hmem
                rcases List.mem_cons.mp hmem with he | hmem2
                · rw [hsi0] at he
                  exact hdist i0 i (by omega) hi2 he.symm
                · exact hcov i (by omega) hi2 hmem2
            · have hne : ndc ≠ node := by
                intro he
                exact hcase ⟨j, Nat.le_refl j, hjd, by rw [← he, hcst]⟩
              have hndcrest : ndc ∈ rest := by
                rcases List.mem_cons.mp hndc with he | hmem
                · exact absurd he hne
                · exact hmem
              refine ⟨j, hjd,
                ⟨ndc, List.mem_append.mpr (Or.inl hndcrest), hcst, hcdep⟩, ?_⟩
              intro i hi1 hi2
              intro hmem
              rcases List.mem_cons.mp hmem with he | hmem2
              · exact hcase ⟨i, hi1, hi2, he.symm⟩
              · exact hcov i hi1 hi2 hmem2
          · obtain ⟨bi, bj, _, _, hb⟩ := getBlankPosition_exists_ok hnd.1.1 hpos
            have hml : moves.length ≤ 4 := moves_length_le hb hmv
            have hcl : (expandChildren size node moves
                (node.state :: c.visited)).length ≤ moves.length :=
              expandChildren_length_le
            have hB := visited_length_le hvwf hvnd
            unfold bfsMeasure
            rw [hqe]
            simp only [List.length_append, List.length_cons]
            omega

/-- Any result the BFS loop produces from an invariant configuration is a
successful solution whose path length is at most the chain bound and whose
length is realized by a genuine move sequence. -/
theorem bfsLoop_run {size d : Nat} {g0 : Grid} {p : List Grid}
    (hpos : 1 ≤ size)
    (hgood : GoodChain size d g0 (generateGoalState size) p)
    (hdist : ∀ i i', i < i' → i' ≤ d → p.getD i [] ≠ p.getD i' []) :
    ∀ (fuel : Nat) (c : SConfig) (r : Except String Solution),
      BfsInv size d g0 p c → bfsLoop size fuel c = some r →
      ∃ sol, r = .ok sol ∧ sol.path.length ≤ d
        ∧ ReachIn size sol.path.length g0 (generateGoalState size) := by
  intro fuel
  induction fuel with
  | zero =>
    intro c r _ h
    simp [bfsLoop] at h
  | succ fuel ih =>
    intro c r hinv hrun
    simp only [bfsLoop] at hrun
    rcases hs : bfsStep size c with r2 | c2 <;> rw [hs] at hrun
    · dsimp only at hrun
      have h2 := Option.some.inj hrun
      subst h2
      exact bfsStep_inl hpos hinv hs
    · exact ih c2 r (bfsInv_step hpos hgood hdist hinv hs).1 hrun

/-- With fuel above the measure, the BFS loop finishes. -/
theorem bfsLoop_total {size d : Nat} {g0 : Grid} {p : List Grid}
    (hpos : 1 ≤ size)
    (hgood : GoodChain size d g0 (generateGoalState size) p)
    (hdist : ∀ i i', i < i' → i' ≤ d → p.getD i [] ≠ p.getD i' []) :
    ∀ (fuel : Nat) (c : SConfig), BfsInv size d g0 p c →
      bfsMeasure size c < fuel → ∃ r, bfsLoop size fuel c = some r := by
  intro fuel
  induction fuel with
  | zero =>
    intro c _ hm
    omega
  | succ fuel ih =>
    intro c hinv hm
    rcases hs : bfsStep size c with r | c2
    · exact ⟨r, by simp only [bfsLoop]; rw [hs]⟩
    · obtain ⟨hinv2, hdec⟩ := bfsInv_step hpos hgood hdist hinv hs
      obtain ⟨r, hr⟩ := ih c2 hinv2 (by omega)
      exact ⟨r, by simp only [bfsLoop]; rw [hs]; exact hr⟩

/-- C2: on a well-formed N×N state from which the goal grid is reachable (a
solvable state), the BFS branch of `solve` — for any heuristic valuation,
which BFS ignores — can only return successfully, any solution it returns has
a path length that is the true minimum number of moves to the goal grid, and
for sufficient fuel it does return a solution. -/
theorem c2_theorem {size : Nat} {g : Grid} (hpos : 1 ≤ size) (hwf : Wf size g)
    (hsolv : ∃ k, ReachIn size k g (generateGoalState size)) (h : Grid → Nat) :
    (∀ fuel sol, solve size g "bfs" h fuel = some (.ok sol) →
        IsMinMoves size g (generateGoalState size) sol.path.length)
      ∧ ∃ fuel sol, solve size g "bfs" h fuel = some (.ok sol) := by
  obtain ⟨k, hk⟩ := hsolv
  obtain ⟨d, hd, hdmin⟩ :=
    nat_exists_min (fun n => ReachIn size n g (generateGoalState size)) k hk
  have hmin : IsMinMoves size g (generateGoalState size) d := ⟨hd, hdmin⟩
  obtain ⟨p, hgood⟩ := exists_goodChain hmin
  have hdist := goodChain_distinct hmin hgood
  have hinit := bfsInv_init hwf hgood
  constructor
  · intro fuel sol hrun
    rw [solve_bfs] at hrun
    obtain ⟨sol2, he, hle, hreach⟩ :=
      bfsLoop_run hpos hgood hdist fuel _ _ hinit hrun
    have hss : sol = sol2 := Except.ok.inj he
    subst hss
    refine ⟨hreach, fun jj hjj => ?_⟩
    have h1 := hdmin _ hreach
    have h2 := hdmin _ hjj
    omega
  · obtain ⟨r, hr⟩ := bfsLoop_total hpos hgood hdist
      (bfsMeasure size ⟨[PNode.root g], [], 0, 0⟩ + 1) _ hinit (Nat.lt_succ_self _)
    obtain ⟨sol, hsr, _, _⟩ := bfsLoop_run hpos hgood hdist _ _ _ hinit hr
    subst hsr
    exact ⟨_, sol, by rw [solve_bfs]; exact hr⟩

/-- Witness for C2 at the 2×2 state one move away from the goal, with the
constant-zero heuristic valuation. -/
theorem c2_witness :
    (∀ fuel sol, solve 2 [[1, 2], [0, 3]] "bfs" (fun _ => 0) fuel
          = some (.ok sol) →
        IsMinMoves 2 [[1, 2], [0, 3]] (generateGoalState 2) sol.path.length)
      ∧ ∃ fuel sol, solve 2 [[1, 2], [0, 3]] "bfs" (fun _ => 0) fuel
          = some (.ok sol) :=
  c2_theorem (by decide) (by decide)
    ⟨1, ReachIn.step (by decide) (ReachIn.refl (generateGoalState 2))⟩
    (fun _ => 0)

end NPuzzle
